import Mathlib

/-!
Verification development for the MCQ parsing / validation / shuffling engine.

The definitions below are a shallow embedding of the TypeScript sources:
  - src/services/shuffle.ts      (shuffle engine)
  - the parser service           (parseMcq, parseQuestionBlockFlexible,
                                  createRow, parseAnswerKey, applyAnswerKey)
  - the validator service        (validateParsedMcq)
  - src/services/generator.ts    (generateAnswerKey)

Conventions of the embedding:
  - JavaScript strings are modelled as `List Char`; row labels and texts are
    stored as `String` in rows.
  - JavaScript `Math.random()` draws are modelled by an oracle parameter
    `rho : Nat -> Nat`; the Fisher-Yates index `Math.floor(random()*(i+1))`
    becomes `rho i % (i+1)`, which ranges over exactly the values the real
    draw can produce, so theorems quantified over `rho` cover every possible
    execution.
  - In-place mutation is modelled by returning the final value of the mutated
    array; where a function returns its own (mutated) input array, the
    returned list is the state of the input after the call.
  - JavaScript regular expressions are compiled by hand to character-level
    scanners with the same backtracking semantics; each scanner carries a
    comment naming the regex it implements.
-/

open scoped List

namespace Mcq

/-- `ParsedRowType` from src/types/mcq.ts:
`'section' | 'question' | 'answer' | 'empty' | 'error'`
(`sec` stands for the source tag `'section'`, which is a Lean keyword). -/
inductive RowType where
  | sec
  | question
  | answer
  | empty
  | error
deriving DecidableEq, Repr

/-- `ParsedRow` from src/types/mcq.ts.  The optional `isKey?: boolean` is
always set to `false` by `createRow`, so it is modelled as a plain `Bool`. -/
structure ParsedRow where
  id : Nat
  type : RowType
  label : String
  text : String
  isKey : Bool
  locked : Bool
  originalNumber : Option Nat
deriving DecidableEq, Repr

/-- All fields of a row except `id` (used to state id-independent facts). -/
def stripId (r : ParsedRow) : RowType × String × String × Bool × Bool × Option Nat :=
  (r.type, r.label, r.text, r.isKey, r.locked, r.originalNumber)

/-- All fields of a row except `label` (relettering changes only `label`). -/
def stripLabel (r : ParsedRow) : Nat × RowType × String × Bool × Bool × Option Nat :=
  (r.id, r.type, r.text, r.isKey, r.locked, r.originalNumber)

/-- All fields of a row except `isKey` (`applyAnswerKey` changes only `isKey`). -/
def stripKey (r : ParsedRow) : Nat × RowType × String × String × Bool × Option Nat :=
  (r.id, r.type, r.label, r.text, r.locked, r.originalNumber)

/-! ## Character classes and basic string helpers -/

/-- The ECMAScript `\s` character class (WhiteSpace plus LineTerminator). -/
def jsSpace (c : Char) : Bool :=
  c = ' ' || c = '\t' || c = '\n' || c.val = 11 || c.val = 12 || c.val = 13 ||
  c.val = 0xa0 || c.val = 0x1680 || (0x2000 ≤ c.val && c.val ≤ 0x200a) ||
  c.val = 0x2028 || c.val = 0x2029 || c.val = 0x202f || c.val = 0x205f ||
  c.val = 0x3000 || c.val = 0xfeff

/-- The line-break code points replaced by `parseMcq`:
`/[\u000a\u000b\u000c\u000d\u0085  ]/g`. -/
def isVert (c : Char) : Bool :=
  c.val = 10 || c.val = 11 || c.val = 12 || c.val = 13 ||
  c.val = 0x85 || c.val = 0x2028 || c.val = 0x2029

/-- The ECMAScript LineTerminator set (LF, CR, LS, PS): the code points the
`.` atom of a non-dotAll regex never matches. -/
def isLineTerm (c : Char) : Bool :=
  c.val = 10 || c.val = 13 || c.val = 0x2028 || c.val = 0x2029

/-- ECMAScript `String.prototype.trim` (strips `\s` from both ends). -/
def jsTrim (l : List Char) : List Char :=
  ((l.dropWhile jsSpace).reverse.dropWhile jsSpace).reverse

/-- Length of the longest prefix satisfying `p` (a maximal regex-class run). -/
def countWhile (p : Char → Bool) : List Char → Nat
  | [] => 0
  | c :: t => if p c then countWhile p t + 1 else 0

/-- ECMAScript `\d`, i.e. `[0-9]`. -/
def isDigit (c : Char) : Bool := '0' ≤ c && c ≤ '9'

/-- The `[.)]` delimiter class used by the question and answer markers. -/
def isDelim (c : Option Char) : Bool := c = some '.' || c = some ')'

/-- The `[A-Ea-e]` answer-letter class. -/
def isLetterAE (c : Char) : Bool :=
  ('A' ≤ c && c ≤ 'E') || ('a' ≤ c && c ≤ 'e')

/-- `String.prototype.split('\n')` on a character list (keeps empty pieces). -/
def splitLF : List Char → List (List Char)
  | [] => [[]]
  | c :: t =>
    if c = '\n' then [] :: splitLF t
    else
      match splitLF t with
      | l :: ls => (c :: l) :: ls
      | [] => [[c]]

/-- Decimal value of a digit run (JavaScript `parseInt`, radix 10 path). -/
def decVal (l : List Char) : Nat :=
  l.foldl (fun acc c => acc * 10 + (c.toNat - '0'.toNat)) 0

/-- Hexadecimal digit test for the `parseInt` `0x` path. -/
def isHexDigit (c : Char) : Bool :=
  isDigit c || ('a' ≤ c && c ≤ 'f') || ('A' ≤ c && c ≤ 'F')

/-- Hexadecimal value of a hex-digit run. -/
def hexVal (l : List Char) : Nat :=
  l.foldl (fun acc c =>
    acc * 16 +
      (if isDigit c then c.toNat - '0'.toNat
       else if 'a' ≤ c && c ≤ 'f' then c.toNat - 'a'.toNat + 10
       else c.toNat - 'A'.toNat + 10)) 0

/-- JavaScript `parseInt(s)` with no radix argument: skip leading whitespace,
optional sign, auto-detected `0x` prefix, longest digit run, trailing garbage
ignored.  `none` models the JavaScript result `NaN`. -/
def jsParseInt (s : String) : Option Int :=
  let cs := s.data.dropWhile jsSpace
  let (sgn, cs2) : Int × List Char :=
    match cs with
    | '-' :: t => (-1, t)
    | '+' :: t => (1, t)
    | _ => (1, cs)
  match cs2 with
  | '0' :: c :: t =>
    if c = 'x' || c = 'X' then
      let ds := t.takeWhile isHexDigit
      if ds = [] then none else some (sgn * (hexVal ds : Nat))
    else
      some (sgn * (decVal (('0' :: c :: t).takeWhile isDigit) : Nat))
  | _ =>
    let ds := cs2.takeWhile isDigit
    if ds = [] then none else some (sgn * (decVal ds : Nat))

/-! ## Shuffle engine (src/services/shuffle.ts) -/

/-- One Fisher-Yates step: `temp = a[i]; swap = a[j];
if (temp !== undefined && swap !== undefined) { a[i] = swap; a[j] = temp }`. -/
def swapIdx (l : List α) (i j : Nat) : List α :=
  match l[i]?, l[j]? with
  | some a, some b => (l.set i b).set j a
  | _, _ => l

/-- The Fisher-Yates loop `for (let i = len - 1; i > 0; i--)` with
`j = Math.floor(Math.random() * (i + 1))` modelled as `rho i % (i + 1)`. -/
def fyAux (rho : Nat → Nat) : Nat → List α → List α
  | 0, l => l
  | i + 1, l => fyAux rho i (swapIdx l (i + 1) (rho (i + 1) % (i + 2)))

/-- Fisher-Yates shuffle of the unlocked elements (lines 34-43 of shuffle.ts). -/
def fisherYates (rho : Nat → Nat) (l : List α) : List α :=
  fyAux rho (l.length - 1) l

/-- `array.splice(idx, 0, element)`: insert at `idx`, clamped to the length
(for `idx > length`, JavaScript appends, and so does this definition). -/
def insertClamped (l : List α) (n : Nat) (a : α) : List α :=
  l.take n ++ a :: l.drop n

/-- Lines 19-24 of shuffle.ts: collect `array[idx]` for each sorted locked
index, skipping `undefined` (out-of-range) entries. -/
def extractLocked (l : List α) (idxs : List Nat) : List α :=
  idxs.filterMap (fun i => l[i]?)

/-- Lines 27-32 of shuffle.ts: `splice(idx, 1)` for each locked index in
descending order (`eraseIdx` is a no-op out of range, exactly like splice). -/
def eraseIdxs (l : List α) (idxs : List Nat) : List α :=
  idxs.reverse.foldl (fun acc i => acc.eraseIdx i) l

/-- Lines 46-51 of shuffle.ts: reinsert each locked element at its original
index in ascending order (`zip` drops unmatched tail entries, which is the
`element !== undefined` guard). -/
def reinsertLocked (base : List α) (pairs : List (Nat × α)) : List α :=
  pairs.foldl (fun acc p => insertClamped acc p.1 p.2) base

/-- `shuffleArray` from shuffle.ts (lines 14-52): sort the locked indexes,
extract the locked elements, remove them, Fisher-Yates the rest, reinsert. -/
def shuffleArray (rho : Nat → Nat) (l : List α) (lockedIndexes : List Nat) : List α :=
  let sorted := List.insertionSort (· ≤ ·) lockedIndexes
  let lockedElements := extractLocked l sorted
  let removed := eraseIdxs l sorted
  let shuffled := fisherYates rho removed
  reinsertLocked shuffled (sorted.zip lockedElements)

/-- `currentSection.push(row)` on the last section, creating `[[r]]` when the
section list is empty (lines 69-76 of shuffle.ts). -/
def appendToLast (ss : List (List ParsedRow)) (r : ParsedRow) : List (List ParsedRow) :=
  match ss with
  | [] => [[r]]
  | [s] => [s ++ [r]]
  | s :: rest => s :: appendToLast rest r

/-- One step of the `splitIntoSections` fold (lines 63-78 of shuffle.ts). -/
def pushSectionRow (ss : List (List ParsedRow)) (r : ParsedRow) : List (List ParsedRow) :=
  if r.type = RowType.sec then ss ++ [[r]] else appendToLast ss r

/-- `splitIntoSections` from shuffle.ts (lines 60-81). -/
def splitIntoSections (rows : List ParsedRow) : List (List ParsedRow) :=
  rows.foldl pushSectionRow []

/-- One step of the headerless branch of `splitSectionIntoQuestions`
(lines 114-123): rows before the first question row are dropped. -/
def pushQuestionRow (qs : List (List ParsedRow)) (r : ParsedRow) : List (List ParsedRow) :=
  if r.type = RowType.question then qs ++ [[r]]
  else match qs with
    | [] => []
    | _ => appendToLast qs r

/-- One step of the header branch of `splitSectionIntoQuestions`
(lines 98-111): rows are appended only when `questions.length > 1`. -/
def pushQuestionRowH (qs : List (List ParsedRow)) (r : ParsedRow) : List (List ParsedRow) :=
  if r.type = RowType.question then qs ++ [[r]]
  else if qs.length > 1 then appendToLast qs r
  else qs

/-- `splitSectionIntoQuestions` from shuffle.ts (lines 89-127). -/
def splitSectionIntoQuestions (s : List ParsedRow) : List (List ParsedRow) :=
  match s.head? with
  | some r =>
    if r.type = RowType.sec then (s.drop 2).foldl pushQuestionRowH [s.take 2]
    else s.foldl pushQuestionRow []
  | none => [].foldl pushQuestionRow []

/-- `splitIntoSectionsAndQuestions` from shuffle.ts (lines 135-138). -/
def splitIntoSectionsAndQuestions (rows : List ParsedRow) : List (List (List ParsedRow)) :=
  (splitIntoSections rows).map splitSectionIntoQuestions

/-- `section[0]?.locked` with `undefined` treated as not locked. -/
def headLocked (s : List ParsedRow) : Bool :=
  (s.head?.map (fun r => r.locked)).getD false

/-- `block[0]?.type` as an optional value. -/
def headType (s : List ParsedRow) : Option RowType :=
  s.head?.map (fun r => r.type)

/-- Lines 175-180 of shuffle.ts: locked section indexes, pushed in
increasing `forEach` order. -/
def lockedSectionIdxs (ss : List (List ParsedRow)) : List Nat :=
  (List.range ss.length).filter (fun k =>
    match ss[k]? with
    | some s => headLocked s
    | none => false)

/-- `shuffleSections` from shuffle.ts (lines 171-187). -/
def shuffleSections (rho : Nat → Nat) (rows : List ParsedRow) : List ParsedRow :=
  let ss := splitIntoSections rows
  (shuffleArray rho ss (lockedSectionIdxs ss)).flatten

/-- Lines 200-213 of shuffle.ts: the header block (index 0 with a section
head) is always locked; other blocks are locked when their first row is. -/
def questionLockIdxs (sec : List (List ParsedRow)) : List Nat :=
  (List.range sec.length).filter (fun i =>
    match sec[i]? with
    | some block =>
      if i = 0 && headType block = some RowType.sec then true else headLocked block
    | none => false)

/-- `shuffleQuestions` from shuffle.ts (lines 195-220).  Each section gets its
own random draws, modelled by indexing the oracle with the section index. -/
def shuffleQuestions (rho : Nat → Nat → Nat) (rows : List ParsedRow) : List ParsedRow :=
  let sbq := splitIntoSectionsAndQuestions rows
  let shuffled := sbq.enum.map (fun p => shuffleArray (rho p.1) p.2 (questionLockIdxs p.2))
  (shuffled.map List.flatten).flatten

/-- Lines 236-245 of shuffle.ts: pin the question row (index 0) and the
trailing row (index length-1), plus interior locked rows in order. -/
def answerLockIdxs (block : List ParsedRow) : List Nat :=
  [0, block.length - 1] ++
    (List.range block.length).filter (fun i =>
      i ≠ 0 && i ≠ block.length - 1 &&
        (match block[i]? with
         | some r => r.locked
         | none => false))

/-- The per-block body of the `allQuestions.forEach` in `shuffleAnswers`
(lines 233-248): section-header blocks are skipped. -/
def shuffleAnswersBlock (rhoB : Nat → Nat) (block : List ParsedRow) : List ParsedRow :=
  if headType block = some RowType.sec then block
  else shuffleArray rhoB block (answerLockIdxs block)

/-- The letter table `['A','B','C','D','E']` of `reletterAnswers`. -/
def letterTable : List String := ["A", "B", "C", "D", "E"]

/-- The letter assigned at cursor position `k`:
`letters[letterIndex] || 'A'` (the fallback fires beyond position 4). -/
def letterFor (k : Nat) : String := (letterTable[k]?).getD "A"

/-- The body of `reletterAnswers` (lines 145-163 of shuffle.ts): a map with a
mutable `letterIndex`, reset on question rows; `letterFor` is the
`letters[letterIndex] || 'A'` lookup. -/
def reletterGo : Nat → List ParsedRow → List ParsedRow
  | _, [] => []
  | li, r :: t =>
    if r.type = RowType.question then r :: reletterGo 0 t
    else if r.type = RowType.answer then
      { r with label := letterFor li } :: reletterGo (li + 1) t
    else r :: reletterGo li t

/-- `reletterAnswers` from shuffle.ts (lines 145-163). -/
def reletterAnswers (rows : List ParsedRow) : List ParsedRow :=
  reletterGo 0 rows

/-- `shuffleAnswers` from shuffle.ts (lines 228-253).  In the source the
blocks of `allQuestions = sectionsByQuestion.flat()` are shuffled in place and
`sectionsByQuestion.flat(2)` then flattens the mutated blocks in order, which
is exactly `(blocks mapped per index).flatten`. -/
def shuffleAnswers (rho : Nat → Nat → Nat) (rows : List ParsedRow) : List ParsedRow :=
  let blocks := (splitIntoSectionsAndQuestions rows).flatten
  let shuffled := blocks.enum.map (fun p => shuffleAnswersBlock (rho p.1) p.2)
  reletterAnswers shuffled.flatten

/-! ## Parser (parseMcq, parseQuestionBlockFlexible, createRow) -/

/-- `createRow` from the parser service (lines 190-206). -/
def createRow (id : Nat) (type : RowType) (label text : String)
    (originalNumber : Option Nat) : ParsedRow :=
  ⟨id, type, label, text, false, false, originalNumber⟩

/-- Normalisation at the top of `parseMcq`:
`input.trim().replace(/[line breaks]/g, '\n')`. -/
def normalizeInput (input : String) : List Char :=
  (jsTrim input.data).map (fun c => if isVert c then '\n' else c)

/-- The block-start regex `/^\s*(?:(\d{1,3})[.)]|(###.*))/` tried at one
position (the caller checks the `^` line-start anchor).  Greedy `\s*` cannot
backtrack usefully (whitespace is neither a digit nor `#`), and `\d{1,3}`
succeeds exactly when the full digit run has length 1-3 and is followed by a
delimiter.  Returns the match length and whether group 2 (a section) matched. -/
def blockMatchAt (s : List Char) : Option (Nat × Bool) :=
  let w := countWhile jsSpace s
  let r := s.drop w
  let d := countWhile isDigit r
  if 1 ≤ d ∧ d ≤ 3 ∧ isDelim r[d]? then some (w + d + 1, false)
  else if r.take 3 = ['#', '#', '#'] then
    some (w + 3 + countWhile (fun c => !isLineTerm c) (r.drop 3), true)
  else none

/-- The block-boundary scan of `parseMcq` (lines 41-69): repeated
`blockStartPattern.exec`, each search resuming at the end of the previous
match.  `pos` is the absolute position of the current suffix, the `Bool` says
whether `pos` is a line start (`^` with the `m` flag), and `skip` counts the
positions still inside the previous match.  Returns `(position, length,
isSection)` for every match found. -/
def scanAux : List Char → Nat → Bool → Nat → List (Nat × Nat × Bool)
  | [], _, _, _ => []
  | c :: t, pos, _, skip + 1 => scanAux t (pos + 1) (c == '\n') skip
  | c :: t, pos, ls, 0 =>
    if ls then
      match blockMatchAt (c :: t) with
      | some (len, sec) => (pos, len, sec) :: scanAux t (pos + 1) (c == '\n') (len - 1)
      | none => scanAux t (pos + 1) (c == '\n') 0
    else scanAux t (pos + 1) (c == '\n') 0

/-- Pair every match with the start of the next match (or the end of the
document): `const end = nextMatch ? nextMatch.index : normalized.length`. -/
def withEnds (total : Nat) : List (Nat × Nat × Bool) → List ((Nat × Nat × Bool) × Nat)
  | [] => []
  | m :: rest =>
    (m, (match rest.head? with
         | some m2 => m2.1
         | none => total)) :: withEnds total rest

/-- The question-number regex `/^\s*(\d{1,3})[.)]\s*(\([^)]*\))?\s*/` of
`parseQuestionBlockFlexible`, at the start of a block.  Returns the digit run
(group 1) and the number of characters consumed, or `none` — which is the
`throw new Error('Invalid question format')` of the source.  The optional
parenthesised annotation matches only when a closing `)` exists; otherwise the
group matches empty and the final `\s*` consumes nothing extra. -/
def questionHeadMatch (b : List Char) : Option (List Char × Nat) :=
  let w := countWhile jsSpace b
  let r := b.drop w
  let d := countWhile isDigit r
  if 1 ≤ d ∧ d ≤ 3 ∧ isDelim r[d]? then
    let q := w + d + 1
    let r2 := b.drop q
    let w2 := countWhile jsSpace r2
    let afterNum :=
      match (r2.drop w2).head? with
      | some '(' =>
        let inner := countWhile (fun c => c ≠ ')') (r2.drop (w2 + 1))
        if (r2.drop (w2 + 1 + inner)).head? = some ')' then
          let afterP := w2 + 1 + inner + 1
          afterP + countWhile jsSpace (r2.drop afterP)
        else w2
      | _ => w2
    some (r.take d, q + afterNum)
  else none

/-- The answer-start marker `/\s*[*]?\s*[Aa][.)]\s+/` tested at one position:
after skipping all whitespace, an optional `*`, more whitespace, `A` or `a`, a
delimiter, and at least one whitespace character. -/
def answerStartAt (s : List Char) : Bool :=
  let r1 := s.drop (countWhile jsSpace s)
  let r2 := match r1.head? with
            | some '*' => r1.drop 1
            | _ => r1
  let r3 := r2.drop (countWhile jsSpace r2)
  (match r3.head? with
   | some c => c == 'A' || c == 'a'
   | none => false) &&
  isDelim r3[1]? &&
  (match r3[2]? with
   | some c => jsSpace c
   | none => false)

/-- Index of the leftmost answer-start marker (`remainingText.match(...)` and
its `.index`). -/
def findAnswerStart : List Char → Option Nat
  | [] => none
  | c :: t =>
    if answerStartAt (c :: t) then some 0
    else (findAnswerStart t).map (fun n => n + 1)

/-- The negative-lookahead body `\s[*]?\s*[A-Ea-e][.)]` of the answer
pattern, tested at one position. -/
def ansLookahead (s : List Char) : Bool :=
  match s with
  | c :: t =>
    jsSpace c &&
    (let r1 := match t.head? with
               | some '*' => t.drop 1
               | _ => t
     let r2 := r1.drop (countWhile jsSpace r1)
     (match r2.head? with
      | some c2 => isLetterAE c2
      | none => false) &&
     isDelim r2[1]?)
  | [] => false

/-- Length of the greedy `((?:(?!\s[*]?\s*[A-Ea-e][.)]).)+)` content run:
each `.` atom requires the negative lookahead to fail and never matches a
line terminator, so the run also stops at every line break. -/
def contentRun : List Char → Nat
  | [] => 0
  | c :: t =>
    if ansLookahead (c :: t) || isLineTerm c then 0 else contentRun t + 1

/-- The largest index `j ≥ n` into the (implicitly indexed) remainder whose
character is not a line terminator: the backtracking order of a greedy `\s+`
handing characters back to a `.`-based content group that must still match at
least one character. -/
def lastNonTermAux : List Char → Nat → Option Nat
  | [], _ => none
  | c :: t, j =>
    match lastNonTermAux t (j + 1) with
    | some k => some k
    | none => if isLineTerm c then none else some j

/-- The answer regex `/([*])?\s*([A-Ea-e])[.)]\s+(content)/` matched at one
position: `(isCorrect, letter, content, match length)`.  When the mandatory
`\s+` run reaches the end of the input, the engine backtracks whitespace
characters into the content group, whose `.` atom accepts a whitespace
character only if it is not a line terminator: the match keeps the last
non-terminator character of the run (never the first, since `\s+` needs at
least one), as a single-character content. -/
def answerMatchAt (s : List Char) : Option (Bool × Char × List Char × Nat) :=
  let (star, off1) : Bool × Nat :=
    match s.head? with
    | some '*' => (true, 1)
    | _ => (false, 0)
  let r1 := s.drop off1
  let w := countWhile jsSpace r1
  let r2 := r1.drop w
  match r2.head? with
  | some c =>
    if isLetterAE c ∧ isDelim r2[1]? then
      let t0 := off1 + w + 2
      let m := countWhile jsSpace (s.drop t0)
      if m = 0 then none
      else
        match s.drop (t0 + m) with
        | [] =>
          match lastNonTermAux ((s.drop (t0 + 1)).take (m - 1)) 1 with
          | some j => some (star, c, (s.drop (t0 + j)).take 1, t0 + j + 1)
          | none => none
        | rest =>
          let n := contentRun rest
          some (star, c, rest.take n, t0 + m + n)
    else none
  | none => none

/-- The `answerPattern.exec` loop (lines 164-181): leftmost matches, each
search resuming at the end of the previous match; `skip` counts positions
still inside the previous match.  The guard `if (!answerMatch[2] ||
!answerMatch[3]) continue` never fires (both groups are always nonempty). -/
def answersScan : List Char → Nat → List (Bool × Char × List Char)
  | [], _ => []
  | _ :: t, skip + 1 => answersScan t skip
  | c :: t, 0 =>
    match answerMatchAt (c :: t) with
    | some (star, letter, content, len) =>
      (star, letter, content) :: answersScan t (len - 1)
    | none => answersScan t 0

/-- `parseQuestionBlockFlexible` from the parser service (lines 115-185).
`Except.error` models the `throw`; the provisional ids `startId + k + 1`
mirror `startId + rows.length + 1` (the caller overwrites them anyway). -/
def parseQuestionBlockFlexible (block : List Char) (startId : Nat) :
    Except Unit (List ParsedRow) :=
  match questionHeadMatch block with
  | none => Except.error ()
  | some (qnum, consumed) =>
    let remaining := block.drop consumed
    let (questionText, answersText) : List Char × List Char :=
      match findAnswerStart remaining with
      | some idx => (jsTrim (remaining.take idx), remaining.drop idx)
      | none => (jsTrim remaining, [])
    let qRow := createRow (startId + 1) RowType.question (String.mk qnum)
      (String.mk questionText) (some (decVal qnum))
    let answers := (answersScan answersText 0).enum.map (fun p =>
      let row := createRow (startId + p.1 + 2) RowType.answer
        (String.mk [p.2.2.1.toUpper]) (String.mk (jsTrim p.2.2.2)) none
      if p.2.1 then { row with isKey := true } else row)
    Except.ok (qRow :: answers)

/-- The section title of a `###` block (line 85):
`block.match[2]?.replace(/^###\s*/, '').trim() || ''`.  Group 2 starts after
the leading whitespace of the match and runs to the end of the line, so inside
the block text it is the slice from `w` to `len`. -/
def sectionTitleOf (text : List Char) (len : Nat) : String :=
  let w := countWhile jsSpace text
  let group2 := (text.drop w).take (len - w)
  String.mk (jsTrim ((group2.drop 3).dropWhile jsSpace))

/-- The rows contributed by one question block (the try/catch of lines
88-101): on success the parsed rows with ids reassigned to `rowId + k + 1`
plus one empty row; on failure one error row (label `error`, text = the whole
block) plus one empty row. -/
def questionBlockRows (b : List Char) (rowId : Nat) : List ParsedRow :=
  match parseQuestionBlockFlexible b rowId with
  | Except.ok qrows =>
    (qrows.enum.map (fun p => { p.2 with id := rowId + p.1 + 1 })) ++
      [createRow (rowId + qrows.length + 1) RowType.empty "" "" none]
  | Except.error _ =>
    [createRow (rowId + 1) RowType.error "error" (String.mk b) none,
     createRow (rowId + 2) RowType.empty "" "" none]

/-- The `blocks.forEach` of `parseMcq` (lines 82-103), threading the running
`rowId` through the section and question branches. -/
def processBlocks (s : List Char) (rowId : Nat) :
    List ((Nat × Nat × Bool) × Nat) → List ParsedRow
  | [] => []
  | (m, e) :: rest =>
    let text := (s.drop m.1).take (e - m.1)
    if m.2.2 then
      createRow (rowId + 1) RowType.sec "S" (sectionTitleOf text m.2.1) none ::
      createRow (rowId + 2) RowType.empty "" "" none ::
      processBlocks s (rowId + 2) rest
    else
      let qrows := questionBlockRows text rowId
      qrows ++ processBlocks s (rowId + qrows.length) rest

/-- `parseMcq` from the parser service (lines 19-106).  The
`_formatSettings` parameter is unused by the source and omitted here. -/
def parseMcq (input : String) : List ParsedRow :=
  let s := normalizeInput input
  if s = [] then []
  else
    let ms := scanAux s 0 true 0
    match ms with
    | [] =>
      if jsTrim s ≠ [] then
        [createRow 1 RowType.sec "S" (String.mk s) none,
         createRow 2 RowType.empty "" "" none]
      else []
    | m :: _ =>
      let preamble :=
        if 0 < m.1 ∧ jsTrim (s.take m.1) ≠ [] then
          [createRow 1 RowType.sec "S" (String.mk (jsTrim (s.take m.1))) none,
           createRow 2 RowType.empty "" "" none]
        else []
      preamble ++ processBlocks s preamble.length (withEnds s.length ms)

/-! ## Validator (validateParsedMcq) -/

/-- `isNum` from the validator: `/^\d+$/.test(label)`. -/
def isNum (label : String) : Bool :=
  label.data ≠ [] && label.data.all isDigit

/-- `ValidationResult` from the validator service. -/
structure ValidationResult where
  isValid : Bool
  firstErrorRowId : Option Nat
  validatedRows : List ParsedRow
deriving DecidableEq, Repr

/-- `validatedRows[i]?.label || ''` — out-of-range and empty both give `""`.
The source reads labels from the copied array, but labels are never written,
so reading from the input list is the same value. -/
def labelAt (rows : List ParsedRow) (i : Nat) : String :=
  ((rows.get? i).map (fun r => r.label)).getD ""

/-- The per-row grammar check of `validateParsedMcq` (lines 143-203):
`hasError` as a function of the label and its neighbours.  The guards
`index > 0`, `index < length - 1`, `index < length - 2` coincide with the
out-of-range behaviour of `labelAt` except for the predecessor, which the
source leaves `''` at index 0. -/
def hasErrorAt (rows : List ParsedRow) (i : Nat) : Bool :=
  let label := labelAt rows i
  let prev := if i = 0 then "" else labelAt rows (i - 1)
  let next := labelAt rows (i + 1)
  let nextNext := labelAt rows (i + 2)
  (label = "S" && (prev ≠ "" || next ≠ "" || !isNum nextNext)) ||
  (label = "" && (prev = "A" || isNum prev ||
    (next = "A" || next = "B" || next = "C" || next = "D" || next = "E"))) ||
  (isNum label && (prev ≠ "" || next ≠ "A")) ||
  (label = "A" && (!isNum prev || next ≠ "B")) ||
  (label = "B" && (prev ≠ "A" || (next ≠ "C" && next ≠ ""))) ||
  (label = "C" && (prev ≠ "B" || (next ≠ "D" && next ≠ ""))) ||
  (label = "D" && (prev ≠ "C" || (next ≠ "E" && next ≠ ""))) ||
  (label = "E" && (prev ≠ "D" || next ≠ ""))

/-- The kind normalisation on non-error rows (lines 121-130); on the five-value
type it is the identity except on `error`, and it is only applied when the row
was not an error. -/
def normKind : RowType → RowType
  | RowType.sec => RowType.sec
  | RowType.question => RowType.question
  | RowType.answer => RowType.answer
  | _ => RowType.empty

/-- The final `type` of row `i` after one validation pass: rows already in
error stay in error; otherwise the kind is normalised (the identity on the
four non-error kinds) and flipped to error when the grammar check fires. -/
def rowFinalType (rows : List ParsedRow) (i : Nat) (r : ParsedRow) : RowType :=
  if r.type = RowType.error then RowType.error
  else if hasErrorAt rows i then RowType.error
  else normKind r.type

/-- The `firstErrorRowId` update: `if (!firstErrorRowId) firstErrorRowId =
row.id` — the falsy test also overwrites a stored id 0. -/
def fidStep (st : Option Nat) (p : Nat × Bool) : Option Nat :=
  if p.2 then
    match st with
    | none => some p.1
    | some 0 => some p.1
    | some m => some m
  else st

/-- `validateParsedMcq` from the validator service (lines 110-221). -/
def validateParsedMcq (rows : List ParsedRow) : ValidationResult :=
  if rows = [] then ⟨true, none, []⟩
  else
    let vr := rows.enum.map (fun p => { p.2 with type := rowFinalType rows p.1 p.2 })
    let fid := (rows.enum.map (fun p =>
      (p.2.id, decide (rowFinalType rows p.1 p.2 = RowType.error)))).foldl fidStep none
    ⟨fid.isNone, fid, vr⟩

/-! ## Generator (generateAnswerKey from src/services/generator.ts) -/

/-- One emitted answer-key line: the template `` `${n}. ${...}` `` with the
letters comma-joined. -/
def keyLine (n : Int) (letters : List String) : String :=
  toString n ++ ". " ++ String.intercalate ", " letters

/-- The fold state and step of `generateAnswerKey` (lines 58-71):
state is (currentQuestionNum, currentAnswers, answerKey). -/
def genKeyStep (st : Int × List String × List String) (r : ParsedRow) :
    Int × List String × List String :=
  let (n, cur, acc) := st
  if r.type = RowType.question then
    if cur ≠ [] then (n + 1, [], acc ++ [keyLine (n - 1) cur])
    else (n + 1, [], acc)
  else if r.type = RowType.answer && r.isKey then (n, cur ++ [r.label], acc)
  else st

/-- `generateAnswerKey` from generator.ts (lines 50-79), with the trailing
flush of the last question. -/
def generateAnswerKey (rows : List ParsedRow) (startNumber : Int) : List String :=
  let (n, cur, acc) := rows.foldl genKeyStep (startNumber, [], [])
  if cur ≠ [] then acc ++ [keyLine (n - 1) cur] else acc

/-! ## Answer-key reconciler (parseAnswerKey, applyAnswerKey) -/

/-- The `[.):\s]+` separator class of the answer-key line regex. -/
def isKeySep (c : Char) : Bool :=
  c = '.' || c = ')' || c = ':' || jsSpace c

/-- The `[A-Ea-e,\s]+` tail class of the answer-key line regex. -/
def isKeyTail (c : Char) : Bool :=
  isLetterAE c || c = ',' || jsSpace c

/-- Whether the tail class can start at the head of `l`. -/
def keyTailHead (l : List Char) : Bool :=
  match l.head? with
  | some c => isKeyTail c
  | none => false

/-- Backtracking of `[.):\s]+` against `[A-Ea-e,\s]+`: the greedy separator
run shrinks from its maximal length `m1` until the tail class can match at
least one character right after it, so the engine keeps the largest prefix
length `k ≥ 1` of the run such that the tail class matches at position `k`
(nothing follows the tail group, so only its first character matters for
success). -/
def keySepPick (rest : List Char) : Nat → Option Nat
  | 0 => none
  | k + 1 =>
    if keyTailHead (rest.drop (k + 1)) then some (k + 1) else keySepPick rest k

/-- The answer-key line regex `/(\d+)[.):\s]+([A-Ea-e,\s]+)/` matched at the
head of `s`: `(group 1, group 2)` — the digit run and the tail run — or
`none` when the regex cannot match at this position. -/
def keyMatchAt (s : List Char) : Option (List Char × List Char) :=
  match s.head? with
  | some c0 =>
    if isDigit c0 then
      let d := countWhile isDigit s
      let rest := s.drop d
      let m1 := countWhile isKeySep rest
      if m1 = 0 then none
      else
        match keySepPick rest m1 with
        | some k => some (s.take d, (rest.drop k).takeWhile isKeyTail)
        | none => none
    else none
  | none => none

/-- Leftmost match of the answer-key line regex (`line.match(...)`): the
engine advances the start position by one character on failure. -/
def keyLineScan : List Char → Option (List Char × List Char)
  | [] => none
  | c :: t =>
    match keyMatchAt (c :: t) with
    | some r => some r
    | none => keyLineScan t

/-- The body of the `parseAnswerKey` line loop (lines 222-234): the single
leftmost match of the line (or `continue` when there is none), then the tail
group is uppercased and stripped to `A`-`E`; an empty result is the second
`continue`, which also skips the whole line. -/
def keyLineEntry (line : List Char) : Option (Nat × List String) :=
  match keyLineScan line with
  | some p =>
    let letters := (p.2.map Char.toUpper).filter (fun c => 'A' ≤ c && c ≤ 'E')
    if letters = [] then none
    else some (decVal p.1, letters.map (fun c => String.mk [c]))
  | none => none

/-- `Map.set` on the insertion-ordered association list that models the
JavaScript `Map`. -/
def jsMapSet (km : List (Nat × List String)) (n : Nat) (v : List String) :
    List (Nat × List String) :=
  if km.any (fun p => p.1 = n) then
    km.map (fun p => if p.1 = n then (n, v) else p)
  else km ++ [(n, v)]

/-- `parseAnswerKey` from the parser service (lines 214-238). -/
def parseAnswerKey (input : String) : List (Nat × List String) :=
  if jsTrim input.data = [] then []
  else
    let ls := (splitLF input.data).filter (fun l => jsTrim l ≠ [])
    ls.foldl (fun km line =>
      match keyLineEntry line with
      | some p => jsMapSet km p.1 p.2
      | none => km) []

/-- `answerKey.get(currentQuestionNum) || []`, where the stored keys are the
natural numbers produced by `parseAnswerKey` and the probe is the
`parseInt` result of the current question label (`none` models `NaN`,
which matches no key). -/
def lookupKey (km : List (Nat × List String)) (q : Option Int) : List String :=
  match q with
  | some n =>
    match km.find? (fun p => (p.1 : Int) = n) with
    | some p => p.2
    | none => []
  | none => []

/-- The walk of `applyAnswerKey` (lines 258-269): the state is
`currentQuestionNum` (`none` = the initial `null`, `some q` after the first
question row, where `q = none` models `NaN`). -/
def applyKeyWalk (km : List (Nat × List String)) :
    Option (Option Int) → List ParsedRow → List ParsedRow
  | _, [] => []
  | q, r :: t =>
    if r.type = RowType.question then r :: applyKeyWalk km (some (jsParseInt r.label)) t
    else if r.type = RowType.answer then
      match q with
      | some qv =>
        (if r.label ∈ lookupKey km qv then { r with isKey := true } else r) ::
          applyKeyWalk km q t
      | none => r :: applyKeyWalk km q t
    else r :: applyKeyWalk km q t

/-- `applyAnswerKey` from the parser service (lines 246-272).  The source
mutates `rows` in place (first clearing `isKey` on every answer row, then
setting it from the key map) and returns the same array, so the returned list
is the state of the input sequence after the call. -/
def applyAnswerKey (rows : List ParsedRow) (km : List (Nat × List String)) :
    List ParsedRow :=
  let cleared := rows.map (fun r =>
    if r.type = RowType.answer then { r with isKey := false } else r)
  applyKeyWalk km none cleared

/-! ## Helper lemmas -/

/-- A list whose characters are all whitespace trims to the empty list. -/
theorem jsTrim_eq_nil_of_all (l : List Char) (h : ∀ c ∈ l, jsSpace c) :
    jsTrim l = [] := by
  unfold jsTrim
  have h1 : l.dropWhile jsSpace = [] :=
    List.dropWhile_eq_nil_iff.mpr (fun c hc => h c hc)
  simp [h1]

/-- Conversely, a list that trims to the empty list is all whitespace. -/
theorem all_of_jsTrim_eq_nil (l : List Char) (h : jsTrim l = []) :
    ∀ c ∈ l, jsSpace c := by
  unfold jsTrim at h
  have h1 : (l.dropWhile jsSpace).reverse.dropWhile jsSpace = [] := by
    have := congrArg List.reverse h
    simpa using this
  have h2 : ∀ c ∈ (l.dropWhile jsSpace).reverse, jsSpace c :=
    List.dropWhile_eq_nil_iff.mp h1
  have h3 : ∀ c ∈ l.dropWhile jsSpace, jsSpace c := by
    intro c hc
    exact h2 c (List.mem_reverse.mpr hc)
  intro c hc
  rcases List.mem_append.mp
    ((List.takeWhile_append_dropWhile (p := jsSpace) (l := l)) ▸ hc) with h4 | h4
  · exact List.mem_takeWhile_imp h4
  · exact h3 c h4

/-- Every character of every `split`-produced line is a character of the
input. -/
theorem splitLF_mem (cs : List Char) :
    ∀ line ∈ splitLF cs, ∀ c ∈ line, c ∈ cs := by
  induction cs with
  | nil =>
    intro line hl c hc
    simp [splitLF] at hl
    simp [hl] at hc
  | cons x t ih =>
    intro line hl c hc
    by_cases hx : x = '\n'
    · simp [splitLF, hx] at hl
      rcases hl with h | h
      · simp [h] at hc
      · exact List.mem_cons_of_mem _ (ih line h c hc)
    · simp only [splitLF, if_neg hx] at hl
      rcases h : splitLF t with _ | ⟨l0, ls⟩
      · rw [h] at hl
        simp at hl
        rw [hl] at hc
        simp at hc
        simp [hc]
      · rw [h] at hl
        rcases List.mem_cons.mp hl with h1 | h1
        · subst h1
          rcases List.mem_cons.mp hc with h2 | h2
          · simp [h2]
          · exact List.mem_cons_of_mem _
              (ih l0 (h ▸ List.mem_cons_self _ _) c h2)
        · exact List.mem_cons_of_mem _
            (ih line (h ▸ List.mem_cons_of_mem _ h1) c hc)

/-- Folding the per-line answer-key step over all lines equals folding the
map update over only the matching lines: non-matching lines contribute
nothing to the result. -/
theorem keyFold_filterMap (ls : List (List Char)) (km : List (Nat × List String)) :
    ls.foldl (fun km line =>
      match keyLineEntry line with
      | some p => jsMapSet km p.1 p.2
      | none => km) km =
    (ls.filterMap keyLineEntry).foldl (fun km p => jsMapSet km p.1 p.2) km := by
  induction ls generalizing km with
  | nil => rfl
  | cons l t ih =>
    rcases h : keyLineEntry l with _ | p
    · simpa [List.foldl_cons, List.filterMap_cons, h] using ih km
    · simpa [List.foldl_cons, List.filterMap_cons, h] using ih (jsMapSet km p.1 p.2)

end Mcq

open Mcq

/-- Claim C8: `parseAnswerKey` on `"1. B\n2) A, C\n3 D"` yields exactly the
mapping `{1: [B], 2: [A, C], 3: [D]}`; and for every input, lines that do not
contribute an entry — no match of the number-then-letters regex, or a match
whose stripped letter group is empty — are silently skipped (the result
equals the fold over only the contributing lines). -/
theorem claim_C8 :
    parseAnswerKey "1. B\n2) A, C\n3 D" = [(1, ["B"]), (2, ["A", "C"]), (3, ["D"])] ∧
    ∀ input : String,
      parseAnswerKey input =
        (((splitLF input.data).filter (fun l => jsTrim l ≠ [])).filterMap
          keyLineEntry).foldl (fun km p => jsMapSet km p.1 p.2) [] := by
  constructor
  · decide
  · intro input
    unfold parseAnswerKey
    by_cases h : jsTrim input.data = []
    · rw [if_pos h]
      have hall : ∀ c ∈ input.data, jsSpace c := all_of_jsTrim_eq_nil _ h
      have hfilter : (splitLF input.data).filter (fun l => jsTrim l ≠ []) = [] := by
        rw [List.filter_eq_nil_iff]
        intro line hline
        have : jsTrim line = [] :=
          jsTrim_eq_nil_of_all line (fun c hc => hall c (splitLF_mem _ line hline c hc))
        simp [this]
      rw [hfilter]
      rfl
    · rw [if_neg h]
      exact keyFold_filterMap _ []

/-- Claim C4 counterexample: on the scenario input the first row produced by
`parseMcq` is the first question row — there is no implicit leading Section
row (the implicit section is emitted only when non-blank text precedes the
first block marker, and here the input starts with the marker `1.`). -/
theorem claim_C4_counterexample :
    ((parseMcq "1. Q1? A. a1 B. a2\n2. Q2? A. a1 B. a2").head?.map
      (fun r => r.type)) = some RowType.question ∧
      RowType.question ≠ RowType.sec := by
  decide

/-- Claim C4 (amended): the scenario input parses to exactly 2 question rows
labeled 1 and 2, each followed by exactly 2 answer rows labeled A and B, each
block terminated by one empty row (which also separates the two blocks) —
with no implicit leading Section/Empty pair, since no text precedes the first
marker. -/
theorem claim_C4_amended :
    parseMcq "1. Q1? A. a1 B. a2\n2. Q2? A. a1 B. a2" =
      [⟨1, RowType.question, "1", "Q1?", false, false, some 1⟩,
       ⟨2, RowType.answer, "A", "a1", false, false, none⟩,
       ⟨3, RowType.answer, "B", "a2", false, false, none⟩,
       ⟨4, RowType.empty, "", "", false, false, none⟩,
       ⟨5, RowType.question, "2", "Q2?", false, false, some 2⟩,
       ⟨6, RowType.answer, "A", "a1", false, false, none⟩,
       ⟨7, RowType.answer, "B", "a2", false, false, none⟩,
       ⟨8, RowType.empty, "", "", false, false, none⟩] := by
  decide

namespace Mcq

/-! ## Question-segment view of the row walks -/

/-- Split a row list at its question rows: segment 0 is the run before the
first question row, and one further segment follows each question row
(the question rows themselves are the delimiters). -/
def splitAtQuestions : List ParsedRow → List (List ParsedRow)
  | [] => [[]]
  | r :: t =>
    if r.type = RowType.question then [] :: splitAtQuestions t
    else
      match splitAtQuestions t with
      | s :: ss => (r :: s) :: ss
      | [] => [[r]]

theorem splitAtQuestions_ne_nil (rows : List ParsedRow) :
    splitAtQuestions rows ≠ [] := by
  induction rows with
  | nil => simp [splitAtQuestions]
  | cons r t ih =>
    by_cases h : r.type = RowType.question
    · simp [splitAtQuestions, h]
    · simp only [splitAtQuestions, if_neg h]
      rcases hs : splitAtQuestions t with _ | ⟨s, ss⟩
      · simp
      · simp

/-- The keyed answer letters of one segment, in row order. -/
def keyedLetters (seg : List ParsedRow) : List String :=
  (seg.filter (fun r => r.type = RowType.answer && r.isKey)).map (fun r => r.label)

/-- The answer-key summary lines of a segment list: segment `k` (whose keyed
letters are nonempty) yields the line numbered `n + k`. -/
def flushLines (n : Int) : List (List ParsedRow) → List String
  | [] => []
  | seg :: rest =>
    (if keyedLetters seg = [] then [] else [keyLine n (keyedLetters seg)]) ++
      flushLines (n + 1) rest

/-- `flushLines` with a pending letter accumulation merged into the first
segment (the intermediate state of the `generateAnswerKey` fold). -/
def flushLinesP (n : Int) (cur : List String) : List (List ParsedRow) → List String
  | [] => if cur = [] then [] else [keyLine n cur]
  | seg :: rest =>
    (if cur ++ keyedLetters seg = [] then []
     else [keyLine n (cur ++ keyedLetters seg)]) ++ flushLines (n + 1) rest

theorem flushLinesP_nil_cur (n : Int) (ss : List (List ParsedRow)) (h : ss ≠ []) :
    flushLinesP n [] ss = flushLines n ss := by
  rcases ss with _ | ⟨s, rest⟩
  · exact absurd rfl h
  · simp [flushLinesP, flushLines]

theorem keyedLetters_cons_key (r : ParsedRow) (s : List ParsedRow)
    (h : r.type = RowType.answer ∧ r.isKey = true) :
    keyedLetters (r :: s) = r.label :: keyedLetters s := by
  simp [keyedLetters, List.filter_cons, h.1, h.2]

theorem keyedLetters_cons_other (r : ParsedRow) (s : List ParsedRow)
    (h : ¬(r.type = RowType.answer ∧ r.isKey = true)) :
    keyedLetters (r :: s) = keyedLetters s := by
  have : (r.type = RowType.answer && r.isKey) = false := by
    by_cases h1 : r.type = RowType.answer
    · have h2 : r.isKey = false := by
        cases hk : r.isKey
        · rfl
        · exact absurd ⟨h1, hk⟩ h
      simp [h1, h2]
    · simp [h1]
  simp [keyedLetters, List.filter_cons, this]

/-- The fold of `generateAnswerKey`, including the trailing flush, computed
segment-wise: the accumulated output comes first, the pending letters merge
into the first remaining segment (flushed with number `n - 1`), and each
later segment `k` flushes with number `n + k`. -/
theorem genKeyFold_eq (rows : List ParsedRow) :
    ∀ (n : Int) (cur acc : List String),
      (let st := rows.foldl genKeyStep (n, cur, acc)
       if st.2.1 ≠ [] then st.2.2 ++ [keyLine (st.1 - 1) st.2.1] else st.2.2) =
      acc ++ flushLinesP (n - 1) cur (splitAtQuestions rows) := by
  induction rows with
  | nil =>
    intro n cur acc
    rcases hc : cur with _ | ⟨c, cs⟩ <;>
      simp [splitAtQuestions, flushLinesP, flushLines, keyedLetters, hc]
  | cons r t ih =>
    intro n cur acc
    by_cases hq : r.type = RowType.question
    · by_cases hc : cur = []
      · subst hc
        have hstep : genKeyStep (n, [], acc) r = (n + 1, [], acc) := by
          simp [genKeyStep, hq]
        simp only [List.foldl_cons, hstep]
        rw [ih (n + 1) [] acc]
        simp only [splitAtQuestions, if_pos hq]
        rw [flushLinesP_nil_cur _ _ (splitAtQuestions_ne_nil t)]
        simp [flushLinesP, keyedLetters]
      · have hstep : genKeyStep (n, cur, acc) r =
            (n + 1, [], acc ++ [keyLine (n - 1) cur]) := by
          simp [genKeyStep, hq, hc]
        simp only [List.foldl_cons, hstep]
        rw [ih (n + 1) [] (acc ++ [keyLine (n - 1) cur])]
        simp only [splitAtQuestions, if_pos hq]
        rw [flushLinesP_nil_cur _ _ (splitAtQuestions_ne_nil t)]
        simp [flushLinesP, keyedLetters, hc]
    · rcases hs : splitAtQuestions t with _ | ⟨s, ss⟩
      · exact absurd hs (splitAtQuestions_ne_nil t)
      · by_cases hk : r.type = RowType.answer ∧ r.isKey = true
        · have hstep : genKeyStep (n, cur, acc) r = (n, cur ++ [r.label], acc) := by
            simp [genKeyStep, hq, hk.1, hk.2]
          simp only [List.foldl_cons, hstep]
          rw [ih n (cur ++ [r.label]) acc]
          simp only [splitAtQuestions, if_neg hq, hs, flushLinesP,
            keyedLetters_cons_key r s hk, List.append_assoc, List.singleton_append]
        · have hstep : genKeyStep (n, cur, acc) r = (n, cur, acc) := by
            by_cases h1 : r.type = RowType.answer
            · have h2 : r.isKey = false := by
                cases hkk : r.isKey
                · rfl
                · exact absurd ⟨h1, hkk⟩ hk
              simp [genKeyStep, hq, h1, h2]
            · simp [genKeyStep, hq, h1]
          simp only [List.foldl_cons, hstep]
          rw [ih n cur acc]
          simp only [splitAtQuestions, if_neg hq, hs, flushLinesP,
            keyedLetters_cons_other r s hk]

end Mcq

/-- Claim C7 counterexample: a row sequence with one question row and no
keyed answers makes `generateAnswerKey` emit no line at all, so it does not
emit one summary line per question row. -/
theorem claim_C7_counterexample :
    generateAnswerKey [⟨1, RowType.question, "1", "q", false, false, none⟩] 1 = [] ∧
    ([⟨1, RowType.question, "1", "q", false, false, none⟩] : List ParsedRow).countP
      (fun r => r.type = RowType.question) = 1 := by
  decide

/-- Claim C7 (amended): `generateAnswerKey` emits exactly one summary line
per question segment that contains at least one keyed answer row — questions
with no keyed answers emit nothing.  Segment `k` after the `k`-th question
row flushes as `"<startNumber + k - 1>. <letters, comma-joined>"` (keyed
answers before any question row flush as the pseudo-number
`startNumber - 1`); flushing happens on each new question row and once more
at end of input. -/
theorem claim_C7_amended (rows : List ParsedRow) (startNumber : Int) :
    generateAnswerKey rows startNumber =
      flushLines (startNumber - 1) (splitAtQuestions rows) := by
  unfold generateAnswerKey
  have h := genKeyFold_eq rows startNumber [] []
  simp only [List.nil_append] at h
  rw [flushLinesP_nil_cur _ _ (splitAtQuestions_ne_nil rows)] at h
  exact h

namespace Mcq

theorem normKind_ne_error (t : RowType) : normKind t ≠ RowType.error := by
  cases t <;> simp [normKind]

theorem normKind_idem (t : RowType) : normKind (normKind t) = normKind t := by
  cases t <;> rfl

/-- Row `i` of the validated rows is input row `i` with its type replaced by
`rowFinalType`. -/
theorem validatedRows_get? (rows : List ParsedRow) (h : rows ≠ []) (i : Nat) :
    ((validateParsedMcq rows).validatedRows).get? i =
      (rows.get? i).map (fun r => { r with type := rowFinalType rows i r }) := by
  unfold validateParsedMcq
  rw [if_neg h]
  simp only [List.get?_map, List.get?_enum]
  cases rows.get? i <;> rfl

/-- Validation does not change labels. -/
theorem labelAt_validated (rows : List ParsedRow) (h : rows ≠ []) (i : Nat) :
    labelAt (validateParsedMcq rows).validatedRows i = labelAt rows i := by
  unfold labelAt
  rw [validatedRows_get? rows h i]
  cases rows.get? i <;> rfl

/-- The grammar check reads only labels, so it is invariant under any
label-preserving transformation. -/
theorem hasErrorAt_congr (l1 l2 : List ParsedRow)
    (h : ∀ j, labelAt l1 j = labelAt l2 j) (i : Nat) :
    hasErrorAt l1 i = hasErrorAt l2 i := by
  unfold hasErrorAt
  rw [h i, h (i - 1), h (i + 1), h (i + 2)]

/-- A second validation pass assigns every row the same type as the first. -/
theorem rowFinalType_idem (rows : List ParsedRow) (h : rows ≠ []) (i : Nat)
    (r : ParsedRow) :
    rowFinalType (validateParsedMcq rows).validatedRows i
      { r with type := rowFinalType rows i r } = rowFinalType rows i r := by
  have he : hasErrorAt (validateParsedMcq rows).validatedRows i = hasErrorAt rows i :=
    hasErrorAt_congr _ _ (fun j => labelAt_validated rows h j) i
  by_cases hW : r.type = RowType.error
  · simp [rowFinalType, hW]
  · by_cases hE : hasErrorAt rows i = true
    · simp [rowFinalType, hW, hE]
    · have hE2 : hasErrorAt rows i = false := by
        cases hb : hasErrorAt rows i
        · rfl
        · exact absurd hb hE
      simp [rowFinalType, hW, hE2, he, normKind_ne_error, normKind_idem]

end Mcq

/-- Claim C6: validation is idempotent after one pass — revalidating the
validated rows yields rows whose types are identical, row for row, to those
of the first pass. -/
theorem claim_C6 (rows : List ParsedRow) :
    ((validateParsedMcq (validateParsedMcq rows).validatedRows).validatedRows).map
      (fun r => r.type) =
    ((validateParsedMcq rows).validatedRows).map (fun r => r.type) := by
  by_cases h : rows = []
  · subst h
    rfl
  · have hvr : (validateParsedMcq rows).validatedRows ≠ [] := by
      intro hnil
      have := validatedRows_get? rows h 0
      rw [hnil] at this
      rcases rows with _ | ⟨r, t⟩
      · exact h rfl
      · simp at this
    apply List.ext_get?
    intro i
    rw [List.get?_map, List.get?_map,
      validatedRows_get? _ hvr i, validatedRows_get? rows h i]
    cases hr : rows.get? i with
    | none => rfl
    | some r =>
      simp only [Option.map_some']
      rw [rowFinalType_idem rows h i r]

namespace Mcq

/-- The state transition of the `applyAnswerKey` walk: a question row loads
its parsed label, other rows keep the state. -/
def nextQ (q : Option (Option Int)) (r : ParsedRow) : Option (Option Int) :=
  if r.type = RowType.question then some (jsParseInt r.label) else q

/-- The per-row update of the `applyAnswerKey` walk, given the current
question state. -/
def applyUpd (km : List (Nat × List String)) (q : Option (Option Int))
    (r : ParsedRow) : ParsedRow :=
  if r.type = RowType.question then r
  else if r.type = RowType.answer then
    match q with
    | some qv => if r.label ∈ lookupKey km qv then { r with isKey := true } else r
    | none => r
  else r

/-- The question state after a row run: the parsed label of the last question
row, or the initial state if the run has none. -/
def lastQnum (l : List ParsedRow) (q : Option (Option Int)) : Option (Option Int) :=
  match (l.filter (fun r => r.type = RowType.question)).getLast? with
  | some x => some (jsParseInt x.label)
  | none => q

/-- The `isKey` value of row `i` after `applyAnswerKey`: answer rows get the
membership test of their letter in the key-map entry of the most recent
question row before them (false when no question precedes or its label is not
a numeric key of the map); other rows keep their flag. -/
def expectedKey (rows : List ParsedRow) (km : List (Nat × List String))
    (i : Nat) (r : ParsedRow) : Bool :=
  if r.type = RowType.answer then
    match lastQnum (rows.take i) none with
    | some qv => decide (r.label ∈ lookupKey km qv)
    | none => false
  else r.isKey

theorem applyKeyWalk_get? (km : List (Nat × List String)) (l : List ParsedRow) :
    ∀ (q : Option (Option Int)) (i : Nat),
      (applyKeyWalk km q l).get? i =
        (l.get? i).map (fun r => applyUpd km ((l.take i).foldl nextQ q) r) := by
  induction l with
  | nil => intro q i; rfl
  | cons r t ih =>
    intro q i
    by_cases hq : r.type = RowType.question
    · have hw : applyKeyWalk km q (r :: t) = r :: applyKeyWalk km (some (jsParseInt r.label)) t := by
        simp [applyKeyWalk, hq]
      rw [hw]
      cases i with
      | zero => simp [applyUpd, hq]
      | succ i =>
        simp only [List.get?_cons_succ, List.take_succ_cons, List.foldl_cons]
        rw [ih (some (jsParseInt r.label)) i]
        have hn : nextQ q r = some (jsParseInt r.label) := by simp [nextQ, hq]
        rw [hn]
    · by_cases ha : r.type = RowType.answer
      · rcases hqs : q with _ | qv
        · have hw : applyKeyWalk km none (r :: t) = r :: applyKeyWalk km none t := by
            simp [applyKeyWalk, hq, ha]
          rw [hw]
          cases i with
          | zero => simp [applyUpd, hq, ha]
          | succ i =>
            simp only [List.get?_cons_succ, List.take_succ_cons, List.foldl_cons]
            rw [ih none i]
            simp [nextQ, hq]
        · have hw : applyKeyWalk km (some qv) (r :: t) =
              (if r.label ∈ lookupKey km qv then { r with isKey := true } else r) ::
                applyKeyWalk km (some qv) t := by
            simp [applyKeyWalk, hq, ha]
          rw [hw]
          cases i with
          | zero => simp [applyUpd, hq, ha]
          | succ i =>
            simp only [List.get?_cons_succ, List.take_succ_cons, List.foldl_cons]
            rw [ih (some qv) i]
            simp [nextQ, hq]
      · have hw : applyKeyWalk km q (r :: t) = r :: applyKeyWalk km q t := by
          rcases q with _ | qv <;> simp [applyKeyWalk, hq, ha]
        rw [hw]
        cases i with
        | zero => simp [applyUpd, hq, ha]
        | succ i =>
          simp only [List.get?_cons_succ, List.take_succ_cons, List.foldl_cons]
          rw [ih q i]
          simp [nextQ, hq]

/-- Clearing `isKey` does not change the question-state fold. -/
theorem foldl_nextQ_clear (l : List ParsedRow) :
    ∀ q, (l.map (fun r =>
        if r.type = RowType.answer then { r with isKey := false } else r)).foldl
          nextQ q = l.foldl nextQ q := by
  induction l with
  | nil => intro q; rfl
  | cons r t ih =>
    intro q
    by_cases ha : r.type = RowType.answer
    · simp only [List.map_cons, List.foldl_cons, if_pos ha]
      rw [ih]
      simp [nextQ, ha]
    · simp only [List.map_cons, List.foldl_cons, if_neg ha]
      rw [ih]

/-- The fold state equals the parsed label of the last question row. -/
theorem foldl_nextQ_eq_lastQnum (l : List ParsedRow) :
    ∀ q, l.foldl nextQ q = lastQnum l q := by
  induction l with
  | nil => intro q; rfl
  | cons r t ih =>
    intro q
    by_cases hq : r.type = RowType.question
    · simp only [List.foldl_cons]
      rw [ih (nextQ q r)]
      unfold lastQnum
      have hf : (r :: t).filter (fun r => r.type = RowType.question) =
          r :: t.filter (fun r => r.type = RowType.question) := by
        simp [List.filter_cons, hq]
      rw [hf]
      cases hg : t.filter (fun r => r.type = RowType.question) with
      | nil => simp [hg, nextQ, hq]
      | cons x xs =>
        rw [hg] at *
        rw [List.getLast?_cons_cons]
        cases hx : (x :: xs).getLast? with
        | none => simp at hx
        | some y => simp [hx, nextQ, hq]
    · simp only [List.foldl_cons]
      rw [ih (nextQ q r)]
      unfold lastQnum
      have hf : (r :: t).filter (fun r => r.type = RowType.question) =
          t.filter (fun r => r.type = RowType.question) := by
        simp [List.filter_cons, hq]
      rw [hf]
      cases hg : t.filter (fun r => r.type = RowType.question) with
      | nil => simp [nextQ, hq]
      | cons x xs =>
        cases hx : (x :: xs).getLast? with
        | none => simp at hx
        | some y => simp [hx]

end Mcq

/-- Claim C2 counterexample: `applyAnswerKey` mutates its input in place and
returns the same (mutated) array, so the input rows after the call are the
returned rows; an answer row that enters with `isKey = true` and an empty key
map leaves with `isKey = false` — the flag is not the same before and after. -/
theorem claim_C2_counterexample :
    (applyAnswerKey [⟨1, RowType.answer, "A", "a", true, false, none⟩] []).map
      (fun r => r.isKey) = [false] ∧
    ([(⟨1, RowType.answer, "A", "a", true, false, none⟩ : ParsedRow)]).map
      (fun r => r.isKey) = [true] := by
  decide

/-- Claim C2 (amended): `applyAnswerKey` returns its input sequence mutated
in place — every row keeps all fields except `isKey`, and `isKey` of each
answer row is recomputed (cleared, then set from the key-map entry of the
most recent preceding question row), rather than keeping its previous value. -/
theorem claim_C2_amended (rows : List ParsedRow) (km : List (Nat × List String))
    (i : Nat) :
    (applyAnswerKey rows km).get? i =
      (rows.get? i).map (fun r => { r with isKey := expectedKey rows km i r }) := by
  unfold applyAnswerKey
  rw [applyKeyWalk_get?]
  rw [← List.map_take, foldl_nextQ_clear, foldl_nextQ_eq_lastQnum]
  rw [List.get?_map]
  cases hr : rows.get? i with
  | none => rfl
  | some r =>
    simp only [Option.map_some']
    by_cases ha : r.type = RowType.answer
    · have hq : ¬ r.type = RowType.question := by rw [ha]; intro hc; cases hc
      have h1 : (if r.type = RowType.answer then { r with isKey := false } else r) =
          { r with isKey := false } := by rw [if_pos ha]
      rw [h1]
      cases hl : lastQnum (rows.take i) none with
      | none =>
        have h2 : applyUpd km none { r with isKey := false } =
            { r with isKey := false } := by
          simp [applyUpd, hq, ha]
        have h3 : expectedKey rows km i r = false := by
          simp [expectedKey, ha, hl]
        rw [h2, h3]
      | some qv =>
        by_cases hm : r.label ∈ lookupKey km qv
        · have h2 : applyUpd km (some qv) { r with isKey := false } =
              { r with isKey := true } := by
            simp [applyUpd, hq, ha, hm]
          have h3 : expectedKey rows km i r = true := by
            simp [expectedKey, ha, hl, hm]
          rw [h2, h3]
        · have h2 : applyUpd km (some qv) { r with isKey := false } =
              { r with isKey := false } := by
            simp [applyUpd, hq, ha, hm]
          have h3 : expectedKey rows km i r = false := by
            simp [expectedKey, ha, hl, hm]
          rw [h2, h3]
    · have h1 : (if r.type = RowType.answer then { r with isKey := false } else r) = r := by
        rw [if_neg ha]
      rw [h1]
      have h2 : applyUpd km (lastQnum (rows.take i) none) r = r := by
        by_cases hq : r.type = RowType.question
        · simp [applyUpd, hq]
        · cases hl : lastQnum (rows.take i) none <;> simp [applyUpd, hq, ha]
      have h3 : expectedKey rows km i r = r.isKey := by
        simp [expectedKey, ha]
      rw [h2, h3]

namespace Mcq

/-! ## Relettering: per-segment characterisation -/

/-- The letters assigned to `n` consecutive answer rows starting at cursor
position `li`. -/
def expectedFrom (li n : Nat) : List String :=
  (List.range n).map (fun k => letterFor (li + k))

/-- The labels of the answer rows of one segment, in row order. -/
def segAnswerLabels (seg : List ParsedRow) : List String :=
  (seg.filter (fun r => r.type = RowType.answer)).map (fun r => r.label)

/-- The answer labels of a row list, grouped by question segment. -/
def answerLabelSegs (rows : List ParsedRow) : List (List String) :=
  (splitAtQuestions rows).map segAnswerLabels

/-- The number of answer rows of each question segment. -/
def answerCounts (rows : List ParsedRow) : List Nat :=
  (splitAtQuestions rows).map (fun seg =>
    (seg.filter (fun r => r.type = RowType.answer)).length)

/-- Relettering restricted to one (question-free) segment, entering with the
cursor at `li`. -/
def reletterSeg : Nat → List ParsedRow → List ParsedRow
  | _, [] => []
  | li, r :: t =>
    if r.type = RowType.answer then
      { r with label := letterFor li } :: reletterSeg (li + 1) t
    else r :: reletterSeg li t

theorem expectedFrom_succ (li n : Nat) :
    expectedFrom li (n + 1) = letterFor li :: expectedFrom (li + 1) n := by
  unfold expectedFrom
  rw [List.range_succ_eq_map]
  simp only [List.map_cons, List.map_map, Nat.add_zero]
  congr 1
  apply List.map_congr_left
  intro k _
  simp only [Function.comp]
  congr 1
  omega

/-- Relettering acts segment-wise: the first segment keeps the incoming
cursor, every segment after a question row restarts at 0. -/
theorem splitAtQuestions_reletterGo (X : List ParsedRow) :
    ∀ li, splitAtQuestions (reletterGo li X) =
      match splitAtQuestions X with
      | s :: ss => reletterSeg li s :: ss.map (reletterSeg 0)
      | [] => [] := by
  induction X with
  | nil => intro li; rfl
  | cons r t ih =>
    intro li
    rcases hs : splitAtQuestions t with _ | ⟨s, ss⟩
    · exact absurd hs (splitAtQuestions_ne_nil t)
    · by_cases hq : r.type = RowType.question
      · simp only [reletterGo, if_pos hq]
        have hout : splitAtQuestions (r :: reletterGo 0 t) =
            [] :: splitAtQuestions (reletterGo 0 t) := by
          simp [splitAtQuestions, hq]
        rw [hout, ih 0, hs]
        simp [splitAtQuestions, hq, hs, reletterSeg]
      · by_cases ha : r.type = RowType.answer
        · simp only [reletterGo, if_neg hq, if_pos ha]
          have hq2 : ¬ ({ r with label := letterFor li } : ParsedRow).type =
              RowType.question := hq
          rcases hs2 : splitAtQuestions (reletterGo (li + 1) t) with _ | ⟨s2, ss2⟩
          · exact absurd hs2 (splitAtQuestions_ne_nil _)
          · have hout : splitAtQuestions
                ({ r with label := letterFor li } :: reletterGo (li + 1) t) =
                ({ r with label := letterFor li } :: s2) :: ss2 := by
              simp only [splitAtQuestions, if_neg hq2, hs2]
            rw [hout]
            have := ih (li + 1)
            rw [hs2, hs] at this
            simp only [splitAtQuestions, if_neg hq, hs]
            have hseg : reletterSeg li (r :: s) =
                { r with label := letterFor li } :: reletterSeg (li + 1) s := by
              simp [reletterSeg, ha]
            rw [hseg]
            have h12 : s2 :: ss2 =
                reletterSeg (li + 1) s :: ss.map (reletterSeg 0) := this
            injection h12 with h1 h2
            rw [h1, h2]
        · simp only [reletterGo, if_neg hq, if_neg ha]
          rcases hs2 : splitAtQuestions (reletterGo li t) with _ | ⟨s2, ss2⟩
          · exact absurd hs2 (splitAtQuestions_ne_nil _)
          · have hout : splitAtQuestions (r :: reletterGo li t) =
                (r :: s2) :: ss2 := by
              simp only [splitAtQuestions, if_neg hq, hs2]
            rw [hout]
            have := ih li
            rw [hs2, hs] at this
            simp only [splitAtQuestions, if_neg hq, hs]
            have hseg : reletterSeg li (r :: s) = r :: reletterSeg li s := by
              simp [reletterSeg, ha]
            rw [hseg]
            have h12 : s2 :: ss2 =
                reletterSeg li s :: ss.map (reletterSeg 0) := this
            injection h12 with h1 h2
            rw [h1, h2]

end Mcq

namespace Mcq

theorem segAnswerLabels_reletterSeg (s : List ParsedRow) :
    ∀ li, segAnswerLabels (reletterSeg li s) =
      expectedFrom li ((s.filter (fun r => r.type = RowType.answer)).length) := by
  induction s with
  | nil => intro li; rfl
  | cons r t ih =>
    intro li
    by_cases ha : r.type = RowType.answer
    · simp only [reletterSeg, if_pos ha]
      have hcons : segAnswerLabels
          ({ r with label := letterFor li } :: reletterSeg (li + 1) t) =
          letterFor li :: segAnswerLabels (reletterSeg (li + 1) t) := by
        simp [segAnswerLabels, List.filter_cons, ha]
      rw [hcons, ih (li + 1)]
      have hlen : ((r :: t).filter (fun r => r.type = RowType.answer)).length =
          (t.filter (fun r => r.type = RowType.answer)).length + 1 := by
        simp [List.filter_cons, ha]
      rw [hlen, expectedFrom_succ]
    · simp only [reletterSeg, if_neg ha]
      have hcons : segAnswerLabels (r :: reletterSeg li t) =
          segAnswerLabels (reletterSeg li t) := by
        simp [segAnswerLabels, List.filter_cons, ha]
      rw [hcons, ih li]
      have hlen : ((r :: t).filter (fun r => r.type = RowType.answer)).length =
          (t.filter (fun r => r.type = RowType.answer)).length := by
        simp [List.filter_cons, ha]
      rw [hlen]

theorem filter_length_reletterSeg (s : List ParsedRow) (li : Nat) :
    ((reletterSeg li s).filter (fun r => r.type = RowType.answer)).length =
      (s.filter (fun r => r.type = RowType.answer)).length := by
  have h := congrArg List.length (segAnswerLabels_reletterSeg s li)
  simpa [segAnswerLabels, expectedFrom] using h

/-- After relettering, the answer labels of every question segment are
exactly the letters assigned positionally from cursor 0. -/
theorem reletter_labelSegs_eq (X : List ParsedRow) :
    answerLabelSegs (reletterGo 0 X) =
      (answerCounts (reletterGo 0 X)).map (expectedFrom 0) := by
  rcases hs : splitAtQuestions X with _ | ⟨s, ss⟩
  · exact absurd hs (splitAtQuestions_ne_nil X)
  · have hsplit := splitAtQuestions_reletterGo X 0
    rw [hs] at hsplit
    have hsplit2 : splitAtQuestions (reletterGo 0 X) =
        reletterSeg 0 s :: ss.map (reletterSeg 0) := hsplit
    unfold answerLabelSegs answerCounts
    rw [hsplit2]
    simp only [List.map_cons, List.map_map]
    congr 1
    · rw [segAnswerLabels_reletterSeg s 0, filter_length_reletterSeg s 0]
    · apply List.map_congr_left
      intro x _
      simp only [Function.comp]
      rw [segAnswerLabels_reletterSeg x 0, filter_length_reletterSeg x 0]

/-- Relettering changes only labels: every other field of every row is kept,
in order. -/
theorem reletterGo_stripLabel (X : List ParsedRow) :
    ∀ li, (reletterGo li X).map stripLabel = X.map stripLabel := by
  induction X with
  | nil => intro li; rfl
  | cons r t ih =>
    intro li
    by_cases hq : r.type = RowType.question
    · simp only [reletterGo, if_pos hq, List.map_cons]
      rw [ih 0]
    · by_cases ha : r.type = RowType.answer
      · simp only [reletterGo, if_neg hq, if_pos ha, List.map_cons]
        rw [ih (li + 1)]
        rfl
      · simp only [reletterGo, if_neg hq, if_neg ha, List.map_cons]
        rw [ih li]

end Mcq

/-- Claim C3 counterexample: a question block with six answer rows comes out
of `shuffleAnswers` with labels `A,B,C,D,E,A` — the sixth answer falls back
to `A`, so the letters are not a repeat-free `A,B,C,...` sequence. -/
theorem claim_C3_counterexample :
    answerLabelSegs (shuffleAnswers (fun _ _ => 0)
      [⟨1, RowType.question, "1", "q", false, false, none⟩,
       ⟨2, RowType.answer, "X", "a1", false, false, none⟩,
       ⟨3, RowType.answer, "X", "a2", false, false, none⟩,
       ⟨4, RowType.answer, "X", "a3", false, false, none⟩,
       ⟨5, RowType.answer, "X", "a4", false, false, none⟩,
       ⟨6, RowType.answer, "X", "a5", false, false, none⟩,
       ⟨7, RowType.answer, "X", "a6", false, false, none⟩,
       ⟨8, RowType.empty, "", "", false, false, none⟩]) =
      [[], ["A", "B", "C", "D", "E", "A"]] ∧
    ¬ (["A", "B", "C", "D", "E", "A"] : List String).Nodup := by
  decide

/-- Claim C3 (amended): after `shuffleAnswers`, the answer rows of each
question segment carry the positionally assigned letters `A,B,C,D,E` in
document order — exactly `A,B,C,...` with no gaps or repeats whenever the
segment has at most five answer rows, with answers beyond the fifth falling
back to `A`; and relettering changes only the `label` field, so each answer
row keeps its `isKey` flag (the flag travels with the row, not with the
letter position). -/
theorem claim_C3_amended (rows : List ParsedRow) (rho : Nat → Nat → Nat) :
    answerLabelSegs (shuffleAnswers rho rows) =
      (answerCounts (shuffleAnswers rho rows)).map (expectedFrom 0) ∧
    ∀ l : List ParsedRow, (reletterAnswers l).map stripLabel = l.map stripLabel := by
  constructor
  · unfold shuffleAnswers reletterAnswers
    exact reletter_labelSegs_eq _
  · intro l
    exact reletterGo_stripLabel l 0

namespace Mcq

/-! ## Locked Fisher-Yates: permutation and pinning -/

theorem cons_set_perm (t : List α) :
    ∀ (m : Nat) (x b : α), t[m]? = some b → b :: t.set m x ~ x :: t := by
  induction t with
  | nil => intro m x b h; simp at h
  | cons y t2 ih =>
    intro m x b h
    cases m with
    | zero =>
      have hb : y = b := by simpa using h
      subst hb
      exact List.Perm.swap x y t2
    | succ m =>
      simp at h
      have step1 : b :: y :: t2.set m x ~ y :: b :: t2.set m x :=
        List.Perm.swap y b (t2.set m x)
      have step2 : y :: (b :: t2.set m x) ~ y :: (x :: t2) :=
        List.Perm.cons y (ih m x b h)
      have step3 : y :: x :: t2 ~ x :: y :: t2 := List.Perm.swap x y t2
      exact (step1.trans step2).trans step3

theorem set_set_perm (l : List α) :
    ∀ (i j : Nat) (a b : α), l[i]? = some a → l[j]? = some b →
      (l.set i b).set j a ~ l := by
  induction l with
  | nil => intro i j a b h1 _; simp at h1
  | cons x t ih =>
    intro i j a b h1 h2
    cases i with
    | zero =>
      have ha : x = a := by simpa using h1
      cases j with
      | zero =>
        have hb : x = b := by simpa using h2
        subst ha
        subst hb
        exact List.Perm.refl _
      | succ j =>
        have hb : t[j]? = some b := by simpa using h2
        subst ha
        show b :: t.set j x ~ x :: t
        exact cons_set_perm t j x b hb
    | succ i =>
      have ha : t[i]? = some a := by simpa using h1
      cases j with
      | zero =>
        have hb : x = b := by simpa using h2
        subst hb
        show a :: t.set i x ~ x :: t
        exact cons_set_perm t i x a ha
      | succ j =>
        have hb : t[j]? = some b := by simpa using h2
        show x :: (t.set i b).set j a ~ x :: t
        exact List.Perm.cons x (ih i j a b ha hb)

theorem swapIdx_perm (l : List α) (i j : Nat) : swapIdx l i j ~ l := by
  unfold swapIdx
  cases h1 : l[i]? with
  | none => exact List.Perm.refl _
  | some a =>
    cases h2 : l[j]? with
    | none => exact List.Perm.refl _
    | some b => exact set_set_perm l i j a b h1 h2

theorem fyAux_perm (rho : Nat → Nat) : ∀ (n : Nat) (l : List α), fyAux rho n l ~ l := by
  intro n
  induction n with
  | zero => intro l; exact List.Perm.refl _
  | succ n ih =>
    intro l
    exact (ih _).trans (swapIdx_perm l (n + 1) (rho (n + 1) % (n + 2)))

theorem fisherYates_perm (rho : Nat → Nat) (l : List α) : fisherYates rho l ~ l :=
  fyAux_perm rho (l.length - 1) l

theorem fisherYates_length (rho : Nat → Nat) (l : List α) :
    (fisherYates rho l).length = l.length :=
  (fisherYates_perm rho l).length_eq

theorem insertClamped_perm (l : List α) (n : Nat) (a : α) :
    insertClamped l n a ~ a :: l := by
  have h := @List.perm_middle _ a (l.take n) (l.drop n)
  rw [List.take_append_drop] at h
  exact h

theorem length_insertClamped (l : List α) (n : Nat) (a : α) :
    (insertClamped l n a).length = l.length + 1 :=
  (insertClamped_perm l n a).length_eq

theorem getElem?_insertClamped_of_lt (l : List α) (n : Nat) (a : α) (m : Nat)
    (h1 : m < n) (h2 : m < l.length) : (insertClamped l n a)[m]? = l[m]? := by
  unfold insertClamped
  rw [List.getElem?_append_left (by simp only [List.length_take]; omega)]
  exact List.getElem?_take_of_lt h1

theorem getElem?_insertClamped_self (l : List α) (n : Nat) (a : α)
    (h : n ≤ l.length) : (insertClamped l n a)[n]? = some a := by
  unfold insertClamped
  rw [List.getElem?_append_right (by simp only [List.length_take]; omega)]
  have hlen : (l.take n).length = n := by simp only [List.length_take]; omega
  rw [hlen]
  simp

theorem cons_eraseIdx_perm (l : List α) :
    ∀ (i : Nat) (a : α), l[i]? = some a → a :: l.eraseIdx i ~ l := by
  induction l with
  | nil => intro i a h; simp at h
  | cons x t ih =>
    intro i a h
    cases i with
    | zero =>
      simp at h
      subst h
      exact List.Perm.refl _
    | succ i =>
      simp at h
      show a :: x :: t.eraseIdx i ~ x :: t
      have step1 : a :: x :: t.eraseIdx i ~ x :: a :: t.eraseIdx i :=
        List.Perm.swap x a (t.eraseIdx i)
      exact step1.trans (List.Perm.cons x (ih i a h))

theorem eraseIdxs_append_last (l : List α) (idxs : List Nat) (i : Nat) :
    eraseIdxs l (idxs ++ [i]) = eraseIdxs (l.eraseIdx i) idxs := by
  unfold eraseIdxs
  rw [List.reverse_append]
  rfl

theorem eraseIdxs_length (S : List Nat) :
    ∀ (l : List α), S.Pairwise (· < ·) → (∀ i ∈ S, i < l.length) →
      (eraseIdxs l S).length = l.length - S.length := by
  induction S using List.reverseRecOn with
  | nil => intro l _ _; rfl
  | append_singleton init im ih =>
    intro l hp hb
    rw [eraseIdxs_append_last]
    have him : im < l.length := hb im (by simp)
    have hpi : init.Pairwise (· < ·) := (List.pairwise_append.mp hp).1
    have hbnd : ∀ j ∈ init, j < im := by
      intro j hj
      exact (List.pairwise_append.mp hp).2.2 j hj im (by simp)
    have hlen : (l.eraseIdx im).length = l.length - 1 :=
      List.length_eraseIdx_of_lt him
    have hb2 : ∀ j ∈ init, j < (l.eraseIdx im).length := by
      intro j hj
      rw [hlen]
      have := hbnd j hj
      omega
    rw [ih _ hpi hb2, hlen]
    simp
    omega

theorem extract_erase_perm (S : List Nat) :
    ∀ (l : List α), S.Pairwise (· < ·) → (∀ i ∈ S, i < l.length) →
      extractLocked l S ++ eraseIdxs l S ~ l := by
  induction S using List.reverseRecOn with
  | nil => intro l _ _; exact List.Perm.refl _
  | append_singleton init im ih =>
    intro l hp hb
    have him : im < l.length := hb im (by simp)
    have ha : l[im]? = some l[im] := List.getElem?_eq_getElem him
    have hpi : init.Pairwise (· < ·) := (List.pairwise_append.mp hp).1
    have hbnd : ∀ j ∈ init, j < im := by
      intro j hj
      exact (List.pairwise_append.mp hp).2.2 j hj im (by simp)
    have hext : extractLocked l (init ++ [im]) =
        extractLocked l init ++ [l[im]] := by
      unfold extractLocked
      rw [List.filterMap_append]
      simp [ha]
    have hcong : extractLocked l init = extractLocked (l.eraseIdx im) init := by
      unfold extractLocked
      apply List.filterMap_congr
      intro j hj
      rw [List.getElem?_eraseIdx_of_lt l im j (hbnd j hj)]
    have hb2 : ∀ j ∈ init, j < (l.eraseIdx im).length := by
      intro j hj
      rw [List.length_eraseIdx_of_lt him]
      have := hbnd j hj
      omega
    rw [hext, hcong, eraseIdxs_append_last]
    have step1 : (extractLocked (l.eraseIdx im) init ++ [l[im]]) ++
        eraseIdxs (l.eraseIdx im) init ~
        l[im] :: (extractLocked (l.eraseIdx im) init ++
          eraseIdxs (l.eraseIdx im) init) := by
      rw [List.append_assoc, List.singleton_append]
      exact List.perm_middle
    have step2 := List.Perm.cons l[im] (ih _ hpi hb2)
    have step3 : l[im] :: l.eraseIdx im ~ l := cons_eraseIdx_perm l im l[im] ha
    exact (step1.trans step2).trans step3

theorem reinsert_perm (pairs : List (Nat × α)) :
    ∀ (base : List α), reinsertLocked base pairs ~ pairs.map Prod.snd ++ base := by
  induction pairs with
  | nil => intro base; exact List.Perm.refl _
  | cons p rest ih =>
    intro base
    have step1 : reinsertLocked base (p :: rest) =
        reinsertLocked (insertClamped base p.1 p.2) rest := rfl
    rw [step1]
    have step2 := ih (insertClamped base p.1 p.2)
    have step3 : rest.map Prod.snd ++ insertClamped base p.1 p.2 ~
        rest.map Prod.snd ++ (p.2 :: base) :=
      List.Perm.append_left _ (insertClamped_perm base p.1 p.2)
    have step4 : rest.map Prod.snd ++ (p.2 :: base) ~
        p.2 :: (rest.map Prod.snd ++ base) := List.perm_middle
    exact (step2.trans step3).trans step4

theorem reinsert_getElem?_below (pairs : List (Nat × α)) :
    ∀ (base : List α) (m : Nat), (∀ p ∈ pairs, m < p.1) → m < base.length →
      (reinsertLocked base pairs)[m]? = base[m]? := by
  induction pairs with
  | nil => intro base m _ _; rfl
  | cons p rest ih =>
    intro base m hlt hm
    have step1 : reinsertLocked base (p :: rest) =
        reinsertLocked (insertClamped base p.1 p.2) rest := rfl
    rw [step1]
    rw [ih (insertClamped base p.1 p.2) m
      (fun q hq => hlt q (List.mem_cons_of_mem _ hq))
      (by rw [length_insertClamped]; omega)]
    exact getElem?_insertClamped_of_lt base p.1 p.2 m (hlt p (by simp)) hm

theorem reinsert_pinned (pairs : List (Nat × α)) :
    ∀ (base : List α), pairs.Pairwise (fun p q => p.1 < q.1) →
      (∀ (k : Nat) (p : Nat × α), pairs[k]? = some p → p.1 ≤ base.length + k) →
      ∀ (k : Nat) (p : Nat × α), pairs[k]? = some p →
        (reinsertLocked base pairs)[p.1]? = some p.2 := by
  induction pairs with
  | nil => intro base _ _ k p h; simp at h
  | cons q rest ih =>
    intro base hp hbnd k p hk
    have step1 : reinsertLocked base (q :: rest) =
        reinsertLocked (insertClamped base q.1 q.2) rest := rfl
    rw [step1]
    cases k with
    | zero =>
      have hqp : q = p := by simpa using hk
      subst hqp
      have hq1 : q.1 ≤ base.length := by
        have := hbnd 0 q (by simp)
        omega
      rw [reinsert_getElem?_below rest (insertClamped base q.1 q.2) q.1
        (fun r hr => (List.pairwise_cons.mp hp).1 r hr)
        (by rw [length_insertClamped]; omega)]
      exact getElem?_insertClamped_self base q.1 q.2 hq1
    | succ k =>
      simp at hk
      apply ih (insertClamped base q.1 q.2) (List.pairwise_cons.mp hp).2
        (fun k2 p2 h2 => by
          have := hbnd (k2 + 1) p2 (by simpa using h2)
          rw [length_insertClamped]
          omega)
        k p hk

end Mcq

namespace Mcq

theorem sorted_nodup_pairwise_lt (S : List Nat) (hs : S.Pairwise (· ≤ ·))
    (hnd : S.Nodup) : S.Pairwise (· < ·) :=
  (hs.and hnd).imp (fun h => lt_of_le_of_ne h.1 h.2)

/-- In a strictly increasing list, entries grow at least by one per step. -/
theorem pairwise_lt_getElem?_ge (S : List Nat) (hp : S.Pairwise (· < ·)) :
    ∀ (k j a b : Nat), j ≤ k → S[j]? = some a → S[k]? = some b →
      a + (k - j) ≤ b := by
  intro k
  induction k with
  | zero =>
    intro j a b hj ha hb
    have hj0 : j = 0 := Nat.le_zero.mp hj
    subst hj0
    rw [ha] at hb
    have : a = b := Option.some.inj hb
    omega
  | succ k ih =>
    intro j a b hj ha hb
    by_cases hjk : j = k + 1
    · subst hjk
      rw [ha] at hb
      have : a = b := Option.some.inj hb
      omega
    · have hj2 : j ≤ k := by omega
      have hk1 : k + 1 < S.length := by
        have := List.getElem?_eq_some_iff.mp hb
        exact this.1
      have hk : k < S.length := by omega
      have hc := ih j a S[k] hj2 ha (List.getElem?_eq_getElem hk)
      have hberr : b = S[k + 1] := by
        have := List.getElem?_eq_getElem hk1
        rw [hb] at this
        exact Option.some.inj this
      have hlt : S[k] < S[k + 1] :=
        (List.pairwise_iff_getElem.mp hp) k (k + 1) hk hk1 (by omega)
      omega

theorem extractLocked_length (l : List α) :
    ∀ (S : List Nat), (∀ j ∈ S, j < l.length) →
      (extractLocked l S).length = S.length := by
  intro S
  induction S with
  | nil => intro _; rfl
  | cons j S2 ih =>
    intro hb
    have hj : j < l.length := hb j (by simp)
    have hcons : extractLocked l (j :: S2) = l[j] :: extractLocked l S2 := by
      unfold extractLocked
      rw [List.filterMap_cons]
      simp [List.getElem?_eq_getElem hj]
    rw [hcons]
    simp only [List.length_cons]
    rw [ih (fun x hx => hb x (List.mem_cons_of_mem _ hx))]

theorem extractLocked_getElem? (l : List α) :
    ∀ (S : List Nat), (∀ j ∈ S, j < l.length) →
      ∀ (k : Nat), (extractLocked l S)[k]? = (S[k]?).bind (fun j => l[j]?) := by
  intro S
  induction S with
  | nil => intro _ k; simp [extractLocked]
  | cons j S2 ih =>
    intro hb k
    have hj : j < l.length := hb j (by simp)
    have hcons : extractLocked l (j :: S2) = l[j] :: extractLocked l S2 := by
      unfold extractLocked
      rw [List.filterMap_cons]
      simp [List.getElem?_eq_getElem hj]
    rw [hcons]
    cases k with
    | zero => simp [List.getElem?_eq_getElem hj]
    | succ k => simpa using ih (fun x hx => hb x (List.mem_cons_of_mem _ hx)) k

/-- The locked Fisher-Yates keeps every locked index at its original
element: the pinning half of the `shuffleArray` contract. -/
theorem shuffleArray_pinned (rho : Nat → Nat) (l : List α) (locked : List Nat)
    (hnd : locked.Nodup) (hb : ∀ i ∈ locked, i < l.length) :
    ∀ i ∈ locked, (shuffleArray rho l locked)[i]? = l[i]? := by
  intro i hi
  unfold shuffleArray
  have hperm : List.insertionSort (· ≤ ·) locked ~ locked :=
    List.perm_insertionSort _ _
  set S := List.insertionSort (· ≤ ·) locked with hS
  have hsorted : S.Pairwise (· ≤ ·) := List.sorted_insertionSort _ _
  have hndS : S.Nodup := hperm.nodup_iff.mpr hnd
  have hpS : S.Pairwise (· < ·) := sorted_nodup_pairwise_lt S hsorted hndS
  have hbS : ∀ j ∈ S, j < l.length := fun j hj => hb j (hperm.mem_iff.mp hj)
  have hiS : i ∈ S := hperm.mem_iff.mpr hi
  obtain ⟨k, hk⟩ := List.mem_iff_getElem?.mp hiS
  have hil : i < l.length := hb i hi
  have hextlen : (extractLocked l S).length = S.length := extractLocked_length l S hbS
  have hextk : (extractLocked l S)[k]? = some l[i] := by
    rw [extractLocked_getElem? l S hbS k, hk]
    simp [List.getElem?_eq_getElem hil]
  have hpairk : (S.zip (extractLocked l S))[k]? = some (i, l[i]) :=
    List.getElem?_zip_eq_some.mpr ⟨hk, hextk⟩
  have hbase : (fisherYates rho (eraseIdxs l S)).length = l.length - S.length := by
    rw [fisherYates_length, eraseIdxs_length S l hpS hbS]
  have hmapfst : (S.zip (extractLocked l S)).map Prod.fst = S :=
    List.map_fst_zip _ _ (by rw [hextlen])
  have hpairwise : (S.zip (extractLocked l S)).Pairwise (fun p q => p.1 < q.1) := by
    have h2 : ((S.zip (extractLocked l S)).map Prod.fst).Pairwise (· < ·) := by
      rw [hmapfst]; exact hpS
    exact (List.pairwise_map.mp h2)
  have hbounds : ∀ (k2 : Nat) (p2 : Nat × α),
      (S.zip (extractLocked l S))[k2]? = some p2 →
      p2.1 ≤ (fisherYates rho (eraseIdxs l S)).length + k2 := by
    intro k2 p2 h2
    have hzk := List.getElem?_zip_eq_some.mp h2
    have hk2S : S[k2]? = some p2.1 := hzk.1
    have hk2lt : k2 < S.length := (List.getElem?_eq_some_iff.mp hk2S).1
    have hK1 : S.length - 1 < S.length := by omega
    have hlast : S[S.length - 1]? = some S[S.length - 1] :=
      List.getElem?_eq_getElem hK1
    have hgap := pairwise_lt_getElem?_ge S hpS (S.length - 1) k2 p2.1
      S[S.length - 1] (by omega) hk2S hlast
    have hlastlt : S[S.length - 1] < l.length :=
      hbS _ (List.getElem_mem hK1)
    rw [hbase]
    omega
  have hres := reinsert_pinned (S.zip (extractLocked l S))
    (fisherYates rho (eraseIdxs l S)) hpairwise hbounds k (i, l[i]) hpairk
  rw [hres]
  rw [List.getElem?_eq_getElem hil]

/-- The locked Fisher-Yates returns a permutation of its input: the
no-loss/no-duplication half of the `shuffleArray` contract. -/
theorem shuffleArray_perm (rho : Nat → Nat) (l : List α) (locked : List Nat)
    (hnd : locked.Nodup) (hb : ∀ i ∈ locked, i < l.length) :
    shuffleArray rho l locked ~ l := by
  unfold shuffleArray
  have hperm : List.insertionSort (· ≤ ·) locked ~ locked :=
    List.perm_insertionSort _ _
  set S := List.insertionSort (· ≤ ·) locked with hS
  have hsorted : S.Pairwise (· ≤ ·) := List.sorted_insertionSort _ _
  have hndS : S.Nodup := hperm.nodup_iff.mpr hnd
  have hpS : S.Pairwise (· < ·) := sorted_nodup_pairwise_lt S hsorted hndS
  have hbS : ∀ j ∈ S, j < l.length := fun j hj => hb j (hperm.mem_iff.mp hj)
  have hextlen : (extractLocked l S).length = S.length := extractLocked_length l S hbS
  have h1 := reinsert_perm (S.zip (extractLocked l S))
    (fisherYates rho (eraseIdxs l S))
  have h2 : (S.zip (extractLocked l S)).map Prod.snd = extractLocked l S :=
    List.map_snd_zip _ _ (by rw [hextlen])
  rw [h2] at h1
  have h3 : extractLocked l S ++ fisherYates rho (eraseIdxs l S) ~
      extractLocked l S ++ eraseIdxs l S :=
    List.Perm.append_left _ (fisherYates_perm rho _)
  exact (h1.trans h3).trans (extract_erase_perm S l hpS hbS)

end Mcq

namespace Mcq

theorem appendToLast_flatten (r : ParsedRow) :
    ∀ ss : List (List ParsedRow), (appendToLast ss r).flatten = ss.flatten ++ [r] := by
  intro ss
  induction ss with
  | nil => rfl
  | cons s rest ih =>
    cases rest with
    | nil => simp [appendToLast]
    | cons s2 rest2 =>
      show (s :: appendToLast (s2 :: rest2) r).flatten = _
      simp only [List.flatten_cons]
      rw [ih]
      simp [List.append_assoc]

theorem pushSectionRow_flatten (ss : List (List ParsedRow)) (r : ParsedRow) :
    (pushSectionRow ss r).flatten = ss.flatten ++ [r] := by
  unfold pushSectionRow
  by_cases h : r.type = RowType.sec
  · simp [h]
  · rw [if_neg h]
    exact appendToLast_flatten r ss

theorem foldl_pushSectionRow_flatten (rows : List ParsedRow) :
    ∀ ss : List (List ParsedRow),
      (rows.foldl pushSectionRow ss).flatten = ss.flatten ++ rows := by
  induction rows with
  | nil => intro ss; simp
  | cons r t ih =>
    intro ss
    simp only [List.foldl_cons]
    rw [ih (pushSectionRow ss r), pushSectionRow_flatten]
    simp

/-- Splitting into sections loses no row and keeps the order:
flattening the sections restores the input. -/
theorem splitIntoSections_flatten (rows : List ParsedRow) :
    (splitIntoSections rows).flatten = rows := by
  unfold splitIntoSections
  rw [foldl_pushSectionRow_flatten rows []]
  rfl

theorem lockedSectionIdxs_nodup (ss : List (List ParsedRow)) :
    (lockedSectionIdxs ss).Nodup :=
  List.Nodup.filter _ (List.nodup_range _)

theorem lockedSectionIdxs_lt (ss : List (List ParsedRow)) :
    ∀ i ∈ lockedSectionIdxs ss, i < ss.length := by
  intro i hi
  exact List.mem_range.mp (List.mem_filter.mp hi).1

end Mcq

/-- Claim C10: for every input row sequence (malformed ones included) and
every random outcome, `shuffleSections` returns a permutation of the input —
no row is dropped or duplicated — and the output is the concatenation of a
permutation of the intact sections, so the relative order of rows within
each section is unchanged. -/
theorem claim_C10 (rho : Nat → Nat) (rows : List ParsedRow) :
    shuffleSections rho rows ~ rows ∧
    ∃ ss2 : List (List ParsedRow), ss2 ~ splitIntoSections rows ∧
      shuffleSections rho rows = ss2.flatten := by
  have hperm := shuffleArray_perm rho (splitIntoSections rows)
    (lockedSectionIdxs (splitIntoSections rows))
    (lockedSectionIdxs_nodup _) (lockedSectionIdxs_lt _)
  constructor
  · show (shuffleArray rho (splitIntoSections rows)
      (lockedSectionIdxs (splitIntoSections rows))).flatten ~ rows
    have h1 := hperm.flatten
    rw [splitIntoSections_flatten rows] at h1
    exact h1
  · exact ⟨shuffleArray rho (splitIntoSections rows)
      (lockedSectionIdxs (splitIntoSections rows)), hperm, rfl⟩

namespace Mcq

theorem questionLockIdxs_nodup (sec : List (List ParsedRow)) :
    (questionLockIdxs sec).Nodup :=
  List.Nodup.filter _ (List.nodup_range _)

theorem questionLockIdxs_lt (sec : List (List ParsedRow)) :
    ∀ i ∈ questionLockIdxs sec, i < sec.length := by
  intro i hi
  exact List.mem_range.mp (List.mem_filter.mp hi).1

theorem answerLockIdxs_nodup (b : List ParsedRow) (h : 2 ≤ b.length) :
    (answerLockIdxs b).Nodup := by
  unfold answerLockIdxs
  rw [List.nodup_append]
  refine ⟨?_, List.Nodup.filter _ (List.nodup_range _), ?_⟩
  · simp only [List.nodup_cons, List.mem_singleton, List.not_mem_nil,
      not_false_iff, List.nodup_nil, and_true]
    omega
  · intro a ha hb2
    have hcond := (List.mem_filter.mp hb2).2
    have hne : a ≠ 0 ∧ a ≠ b.length - 1 := by
      simp only [Bool.and_eq_true, decide_eq_true_eq] at hcond
      exact ⟨hcond.1.1, hcond.1.2⟩
    have ha2 : a = 0 ∨ a = b.length - 1 := by simpa using ha
    rcases ha2 with h0 | h1
    · exact hne.1 h0
    · exact hne.2 h1

theorem answerLockIdxs_lt (b : List ParsedRow) (h : 1 ≤ b.length) :
    ∀ i ∈ answerLockIdxs b, i < b.length := by
  intro i hi
  unfold answerLockIdxs at hi
  rcases List.mem_append.mp hi with hA | hB
  · have h2 : i = 0 ∨ i = b.length - 1 := by simpa using hA
    omega
  · exact List.mem_range.mp (List.mem_filter.mp hB).1

end Mcq

/-- Claim C1 counterexample: a locked row inside an unlocked section changes
absolute index under `shuffleSections` when the sections swap — the lock
invariant does not hold at the row level for the section mode. -/
theorem claim_C1_counterexample :
    (([⟨1, RowType.sec, "S", "s0", false, false, none⟩,
       ⟨2, RowType.sec, "S", "s1", false, false, none⟩,
       ⟨3, RowType.question, "1", "q", false, true, none⟩] :
        List ParsedRow)[2]?).map (fun r => r.locked) = some true ∧
    (shuffleSections (fun _ => 0)
      [⟨1, RowType.sec, "S", "s0", false, false, none⟩,
       ⟨2, RowType.sec, "S", "s1", false, false, none⟩,
       ⟨3, RowType.question, "1", "q", false, true, none⟩])[2]? ≠
    ([⟨1, RowType.sec, "S", "s0", false, false, none⟩,
      ⟨2, RowType.sec, "S", "s1", false, false, none⟩,
      ⟨3, RowType.question, "1", "q", false, true, none⟩] :
       List ParsedRow)[2]? := by
  decide

/-- Claim C1 (amended): the lock invariant holds at each shuffle mode's own
granularity, not at the absolute row index.  For `shuffleSections`, a section
whose head row is locked keeps its index in the section list; for
`shuffleQuestions`, a block whose head row is locked keeps its index in its
section's block list; for `shuffleAnswers`, every index pinned by the block
(the question row, the trailing row, and interior locked rows) keeps its
element within the block.  Absolute row positions may still shift when
unlocked units of different sizes move around a locked one. -/
theorem claim_C1_amended :
    (∀ (rho : Nat → Nat) (rows : List ParsedRow) (k : Nat) (s : List ParsedRow),
      (splitIntoSections rows)[k]? = some s → headLocked s = true →
      (shuffleArray rho (splitIntoSections rows)
        (lockedSectionIdxs (splitIntoSections rows)))[k]? = some s) ∧
    (∀ (rho : Nat → Nat) (rows : List ParsedRow) (k : Nat)
      (sec : List (List ParsedRow)) (j : Nat) (b : List ParsedRow),
      (splitIntoSectionsAndQuestions rows)[k]? = some sec →
      sec[j]? = some b → headLocked b = true →
      (shuffleArray rho sec (questionLockIdxs sec))[j]? = some b) ∧
    (∀ (rho : Nat → Nat) (b : List ParsedRow) (i : Nat),
      i ∈ answerLockIdxs b →
      (shuffleAnswersBlock rho b)[i]? = b[i]?) := by
  refine ⟨?_, ?_, ?_⟩
  · intro rho rows k s hk hlock
    have hklen : k < (splitIntoSections rows).length :=
      (List.getElem?_eq_some_iff.mp hk).1
    have hmem : k ∈ lockedSectionIdxs (splitIntoSections rows) := by
      apply List.mem_filter.mpr
      refine ⟨List.mem_range.mpr hklen, ?_⟩
      show (match (splitIntoSections rows)[k]? with
            | some s => headLocked s
            | none => false) = true
      rw [hk]
      exact hlock
    have hpin := shuffleArray_pinned rho (splitIntoSections rows)
      (lockedSectionIdxs (splitIntoSections rows))
      (lockedSectionIdxs_nodup _) (lockedSectionIdxs_lt _) k hmem
    rw [hpin, hk]
  · intro rho rows k sec j b _ hj hlock
    have hjlen : j < sec.length := (List.getElem?_eq_some_iff.mp hj).1
    have hmem : j ∈ questionLockIdxs sec := by
      apply List.mem_filter.mpr
      refine ⟨List.mem_range.mpr hjlen, ?_⟩
      show (match sec[j]? with
            | some block =>
              if j = 0 && headType block = some RowType.sec then true
              else headLocked block
            | none => false) = true
      rw [hj]
      show (if (j = 0 && headType b = some RowType.sec) = true then true
            else headLocked b) = true
      split
      · rfl
      · exact hlock
    have hpin := shuffleArray_pinned rho sec (questionLockIdxs sec)
      (questionLockIdxs_nodup _) (questionLockIdxs_lt _) j hmem
    rw [hpin, hj]
  · intro rho b i hi
    unfold shuffleAnswersBlock
    by_cases hsec : headType b = some RowType.sec
    · rw [if_pos hsec]
    · rw [if_neg hsec]
      match b, hi with
      | [], hi =>
        have hi0 : i = 0 := by
          simpa [answerLockIdxs] using hi
        subst hi0
        rfl
      | [x], hi =>
        have hi0 : i = 0 := by
          simp [answerLockIdxs] at hi
          tauto
        subst hi0
        rfl
      | x :: y :: rest, hi =>
        exact shuffleArray_pinned rho (x :: y :: rest) (answerLockIdxs _)
          (answerLockIdxs_nodup _ (by simp only [List.length_cons]; omega))
          (answerLockIdxs_lt _ (by simp only [List.length_cons]; omega)) i hi

/-- Claim C1 witness: the three granular lock invariants instantiated on
concrete inputs — a locked single-row section, the same section as a locked
header block, and a question block with a locked interior answer row. -/
theorem claim_C1_witness :
    (shuffleArray (fun _ => 0)
      (splitIntoSections [⟨1, RowType.sec, "S", "s", false, true, none⟩])
      (lockedSectionIdxs
        (splitIntoSections [⟨1, RowType.sec, "S", "s", false, true, none⟩])))[0]? =
      some [⟨1, RowType.sec, "S", "s", false, true, none⟩] ∧
    (shuffleArray (fun _ => 0) [[(⟨1, RowType.sec, "S", "s", false, true, none⟩ : ParsedRow)]]
      (questionLockIdxs [[(⟨1, RowType.sec, "S", "s", false, true, none⟩ : ParsedRow)]]))[0]? =
      some [⟨1, RowType.sec, "S", "s", false, true, none⟩] ∧
    (shuffleAnswersBlock (fun _ => 0)
      [⟨1, RowType.question, "1", "q", false, false, none⟩,
       ⟨2, RowType.answer, "A", "a", false, true, none⟩,
       ⟨3, RowType.empty, "", "", false, false, none⟩])[1]? =
      ([⟨1, RowType.question, "1", "q", false, false, none⟩,
        ⟨2, RowType.answer, "A", "a", false, true, none⟩,
        ⟨3, RowType.empty, "", "", false, false, none⟩] :
         List ParsedRow)[1]? := by
  refine ⟨?_, ?_, ?_⟩
  · exact claim_C1_amended.1 (fun _ => 0)
      [⟨1, RowType.sec, "S", "s", false, true, none⟩] 0
      [⟨1, RowType.sec, "S", "s", false, true, none⟩] (by decide) (by decide)
  · exact claim_C1_amended.2.1 (fun _ => 0)
      [⟨1, RowType.sec, "S", "s", false, true, none⟩] 0
      [[⟨1, RowType.sec, "S", "s", false, true, none⟩]] 0
      [⟨1, RowType.sec, "S", "s", false, true, none⟩] (by decide) (by decide) (by decide)
  · exact claim_C1_amended.2.2 (fun _ => 0)
      [⟨1, RowType.question, "1", "q", false, false, none⟩,
       ⟨2, RowType.answer, "A", "a", false, true, none⟩,
       ⟨3, RowType.empty, "", "", false, false, none⟩] 1 (by decide)


namespace Mcq

/-! ## Scanner postconditions -/

theorem countWhile_le_length (p : Char → Bool) :
    ∀ l : List Char, countWhile p l ≤ l.length := by
  intro l
  induction l with
  | nil => simp [countWhile]
  | cons c t ih =>
    unfold countWhile
    by_cases h : p c = true
    · simp only [if_pos h, List.length_cons]
      omega
    · simp only [if_neg h, List.length_cons]
      omega

theorem countWhile_take (p : Char → Bool) :
    ∀ (l : List Char) (k : Nat),
      countWhile p (l.take k) = min (countWhile p l) k := by
  intro l
  induction l with
  | nil => intro k; simp [countWhile]
  | cons c t ih =>
    intro k
    cases k with
    | zero => simp [countWhile]
    | succ k =>
      simp only [List.take_succ_cons]
      unfold countWhile
      by_cases h : p c = true
      · simp only [if_pos h]
        rw [ih k]
        omega
      · simp only [if_neg h]
        omega

theorem scanAux_nil (pos : Nat) (ls : Bool) (skip : Nat) :
    scanAux [] pos ls skip = [] := rfl

theorem scanAux_cons_skip (c : Char) (t : List Char) (pos sk : Nat) (ls : Bool) :
    scanAux (c :: t) pos ls (sk + 1) = scanAux t (pos + 1) (c == '\n') sk := rfl

theorem scanAux_cons_zero_true (c : Char) (t : List Char) (pos : Nat) :
    scanAux (c :: t) pos true 0 =
      (match blockMatchAt (c :: t) with
       | some (len, sec) =>
         (pos, len, sec) :: scanAux t (pos + 1) (c == '\n') (len - 1)
       | none => scanAux t (pos + 1) (c == '\n') 0) := rfl

theorem scanAux_cons_zero_false (c : Char) (t : List Char) (pos : Nat) :
    scanAux (c :: t) pos false 0 = scanAux t (pos + 1) (c == '\n') 0 := rfl

theorem blockMatchAt_pos (u : List Char) (len : Nat) (sec : Bool)
    (h : blockMatchAt u = some (len, sec)) : 1 ≤ len := by
  simp only [blockMatchAt] at h
  split at h
  · have hlen := congrArg Prod.fst (Option.some.inj h)
    simp at hlen
    omega
  · split at h
    · have hlen := congrArg Prod.fst (Option.some.inj h)
      simp at hlen
      omega
    · exact absurd h (by simp)

theorem blockMatchAt_le_length (u : List Char) (len : Nat) (sec : Bool)
    (h : blockMatchAt u = some (len, sec)) : len ≤ u.length := by
  simp only [blockMatchAt] at h
  split at h
  next hcond =>
    have hlen := congrArg Prod.fst (Option.some.inj h)
    simp only at hlen
    have hdelim := hcond.2.2
    have hdlt : countWhile isDigit (u.drop (countWhile jsSpace u)) <
        (u.drop (countWhile jsSpace u)).length := by
      rcases hget : (u.drop (countWhile jsSpace u))[countWhile isDigit
        (u.drop (countWhile jsSpace u))]? with _ | c
      · rw [hget] at hdelim
        simp [isDelim] at hdelim
      · exact (List.getElem?_eq_some_iff.mp hget).1
    have hw : countWhile jsSpace u ≤ u.length := countWhile_le_length _ _
    rw [List.length_drop] at hdlt
    omega
  · split at h
    next hsharp =>
      have hlen := congrArg Prod.fst (Option.some.inj h)
      simp only at hlen
      have h3 : 3 ≤ u.length - countWhile jsSpace u := by
        have hlen3 := congrArg List.length hsharp
        rw [List.length_take, List.length_drop] at hlen3
        simp only [List.length_cons, List.length_nil] at hlen3
        omega
      have hcnt := countWhile_le_length (fun c => !isLineTerm c)
        ((u.drop (countWhile jsSpace u)).drop 3)
      have hw : countWhile jsSpace u ≤ u.length := countWhile_le_length _ _
      rw [List.length_drop, List.length_drop] at hcnt
      omega
    · exact absurd h (by simp)

/-- Every match reported by the block scan lies at or after the scan
position plus the pending skip, and the block-start regex really matches at
its position. -/
theorem scanAux_shape :
    ∀ (suffix : List Char) (pos : Nat) (ls : Bool) (skip : Nat),
      ∀ m ∈ scanAux suffix pos ls skip,
        pos + skip ≤ m.1 ∧
        blockMatchAt (suffix.drop (m.1 - pos)) = some (m.2.1, m.2.2) := by
  intro suffix
  induction suffix with
  | nil =>
    intro pos ls skip m hm
    rw [scanAux_nil] at hm
    cases hm
  | cons c t ih =>
    intro pos ls skip m hm
    cases skip with
    | succ sk =>
      rw [scanAux_cons_skip] at hm
      have h2 := ih (pos + 1) (c == '\n') sk m hm
      refine ⟨by omega, ?_⟩
      have hpos : m.1 - pos = (m.1 - (pos + 1)) + 1 := by omega
      rw [hpos, List.drop_succ_cons]
      exact h2.2
    | zero =>
      cases ls with
      | false =>
        rw [scanAux_cons_zero_false] at hm
        have h2 := ih (pos + 1) (c == '\n') 0 m hm
        refine ⟨by omega, ?_⟩
        have hpos : m.1 - pos = (m.1 - (pos + 1)) + 1 := by omega
        rw [hpos, List.drop_succ_cons]
        exact h2.2
      | true =>
        rw [scanAux_cons_zero_true] at hm
        cases hbm : blockMatchAt (c :: t) with
        | some p =>
          obtain ⟨len, sec⟩ := p
          rw [hbm] at hm
          dsimp only at hm
          rcases List.mem_cons.mp hm with hhead | htail
          · subst hhead
            refine ⟨by omega, ?_⟩
            simp only [Nat.sub_self, List.drop_zero]
            exact hbm
          · have h2 := ih (pos + 1) (c == '\n') (len - 1) m htail
            refine ⟨by omega, ?_⟩
            have hpos : m.1 - pos = (m.1 - (pos + 1)) + 1 := by omega
            rw [hpos, List.drop_succ_cons]
            exact h2.2
        | none =>
          rw [hbm] at hm
          dsimp only at hm
          have h2 := ih (pos + 1) (c == '\n') 0 m hm
          refine ⟨by omega, ?_⟩
          have hpos : m.1 - pos = (m.1 - (pos + 1)) + 1 := by omega
          rw [hpos, List.drop_succ_cons]
          exact h2.2

/-- Consecutive matches do not overlap: each match ends at or before the
start of the next. -/
theorem scanAux_chain :
    ∀ (suffix : List Char) (pos : Nat) (ls : Bool) (skip : Nat),
      List.Chain' (fun m1 m2 => m1.1 + m1.2.1 ≤ m2.1)
        (scanAux suffix pos ls skip) := by
  intro suffix
  induction suffix with
  | nil =>
    intro pos ls skip
    rw [scanAux_nil]
    exact List.chain'_nil
  | cons c t ih =>
    intro pos ls skip
    cases skip with
    | succ sk =>
      rw [scanAux_cons_skip]
      exact ih (pos + 1) (c == '\n') sk
    | zero =>
      cases ls with
      | false =>
        rw [scanAux_cons_zero_false]
        exact ih (pos + 1) (c == '\n') 0
      | true =>
        rw [scanAux_cons_zero_true]
        cases hbm : blockMatchAt (c :: t) with
        | some p =>
          obtain ⟨len, sec⟩ := p
          dsimp only
          apply List.chain'_cons'.mpr
          constructor
          · intro m2 hm2
            have hmem : m2 ∈ scanAux t (pos + 1) (c == '\n') (len - 1) :=
              List.mem_of_mem_head? hm2
            have h2 := (scanAux_shape t (pos + 1) (c == '\n') (len - 1) m2 hmem).1
            have hp1 : 1 ≤ len := blockMatchAt_pos (c :: t) len sec hbm
            dsimp only
            omega
          · exact ih (pos + 1) (c == '\n') (len - 1)
        | none =>
          dsimp only
          exact ih (pos + 1) (c == '\n') 0

end Mcq

namespace Mcq

/-- Every block produced by `withEnds` pairs a scanner match with an end
position at or after the end of the match. -/
theorem withEnds_mem :
    ∀ (ms : List (Nat × Nat × Bool)) (total : Nat),
      List.Chain' (fun m1 m2 => m1.1 + m1.2.1 ≤ m2.1) ms →
      (∀ m ∈ ms, m.1 + m.2.1 ≤ total) →
      ∀ me ∈ withEnds total ms, me.1 ∈ ms ∧ me.1.1 + me.1.2.1 ≤ me.2 := by
  intro ms
  induction ms with
  | nil => intro total _ _ me hme; cases hme
  | cons m rest ih =>
    intro total hchain hbound me hme
    rw [withEnds] at hme
    rcases List.mem_cons.mp hme with hhead | htail
    · subst hhead
      refine ⟨List.mem_cons_self _ _, ?_⟩
      cases hrest : rest with
      | nil =>
        simp only [hrest, List.head?_nil]
        exact hbound m (List.mem_cons_self _ _)
      | cons m2 rest2 =>
        simp only [hrest, List.head?_cons]
        rw [hrest] at hchain
        exact (List.chain'_cons.mp hchain).1
    · have h2 := ih total hchain.tail
        (fun x hx => hbound x (List.mem_cons_of_mem _ hx)) me htail
      exact ⟨List.mem_cons_of_mem _ h2.1, h2.2⟩

/-- If the block-start regex matched with the question alternative, the
question-number regex of the block parser succeeds on any block text that
contains the whole marker. -/
theorem questionHeadMatch_isSome (u : List Char) (len : Nat)
    (h : blockMatchAt u = some (len, false)) (k : Nat) (hk : len ≤ k) :
    (questionHeadMatch (u.take k)).isSome = true := by
  simp only [blockMatchAt] at h
  split at h
  next hcond =>
    have hlen := congrArg Prod.fst (Option.some.inj h)
    simp only at hlen
    have hw' : countWhile jsSpace (u.take k) = countWhile jsSpace u := by
      rw [countWhile_take]
      exact Nat.min_eq_left (by omega)
    have hdrop : (u.take k).drop (countWhile jsSpace u) =
        (u.drop (countWhile jsSpace u)).take (k - countWhile jsSpace u) :=
      List.drop_take ..
    have hd' : countWhile isDigit
        ((u.drop (countWhile jsSpace u)).take (k - countWhile jsSpace u)) =
        countWhile isDigit (u.drop (countWhile jsSpace u)) := by
      rw [countWhile_take]
      exact Nat.min_eq_left (by omega)
    have hdel : ((u.drop (countWhile jsSpace u)).take
        (k - countWhile jsSpace u))[countWhile isDigit
          (u.drop (countWhile jsSpace u))]? =
        (u.drop (countWhile jsSpace u))[countWhile isDigit
          (u.drop (countWhile jsSpace u))]? :=
      List.getElem?_take_of_lt (by omega)
    simp only [questionHeadMatch, hw', hdrop, hd', hdel]
    rw [if_pos hcond]
    rfl
  · split at h
    · have hsec := congrArg Prod.snd (Option.some.inj h)
      simp at hsec
    · exact absurd h (by simp)

/-- The rows of a successfully parsed question block are question or answer
rows. -/
theorem parseQBF_types (t : List Char) (rowId : Nat) (rows : List ParsedRow)
    (h : parseQuestionBlockFlexible t rowId = Except.ok rows) :
    ∀ r ∈ rows, r.type = RowType.question ∨ r.type = RowType.answer := by
  unfold parseQuestionBlockFlexible at h
  cases hq : questionHeadMatch t with
  | none => rw [hq] at h; cases h
  | some p =>
    rw [hq] at h
    simp only at h
    have hrows := Except.ok.inj h
    intro r hr
    rw [← hrows] at hr
    rcases List.mem_cons.mp hr with hhead | htail
    · left
      rw [hhead]
      rfl
    · right
      rcases List.mem_map.mp htail with ⟨q, _, hq2⟩
      rw [← hq2]
      by_cases hstar : q.2.1 = true
      · simp only [hstar, if_true]
        rfl
      · have : q.2.1 = false := by
          cases hb : q.2.1
          · rfl
          · exact absurd hb hstar
        simp only [this, Bool.false_eq_true, if_false]
        rfl

/-- A question block whose number regex matches contributes only
question/answer/empty rows — never an error row. -/
theorem questionBlockRows_no_error (t : List Char) (rowId : Nat)
    (h : (questionHeadMatch t).isSome = true) :
    ∀ r ∈ questionBlockRows t rowId, r.type ≠ RowType.error := by
  intro r hr
  unfold questionBlockRows at hr
  cases hp : parseQuestionBlockFlexible t rowId with
  | error e =>
    exfalso
    unfold parseQuestionBlockFlexible at hp
    cases hq : questionHeadMatch t with
    | none => rw [hq] at h; cases h
    | some p => rw [hq] at hp; simp at hp
  | ok qrows =>
    rw [hp] at hr
    rcases List.mem_append.mp hr with hmap | hemp
    · rcases List.mem_map.mp hmap with ⟨q, hq2, hq3⟩
      have hq4 : q.2 ∈ qrows := by
        have := List.mem_enum_iff_get?.mp hq2
        exact List.get?_mem this
      have htype := parseQBF_types t rowId qrows hp q.2 hq4
      rw [← hq3]
      rcases htype with h1 | h1 <;> simp [h1]
    · have : r = createRow (rowId + qrows.length + 1) RowType.empty "" "" none := by
        simpa using hemp
      rw [this]
      simp [createRow]

theorem processBlocks_no_error (s : List Char) :
    ∀ (bs : List ((Nat × Nat × Bool) × Nat)) (rowId : Nat),
      (∀ me ∈ bs, me.1.2.2 = false →
        (questionHeadMatch ((s.drop me.1.1).take (me.2 - me.1.1))).isSome = true) →
      ∀ r ∈ processBlocks s rowId bs, r.type ≠ RowType.error := by
  intro bs
  induction bs with
  | nil => intro rowId _ r hr; cases hr
  | cons me rest ih =>
    intro rowId hyp r hr
    obtain ⟨m, e⟩ := me
    simp only [processBlocks] at hr
    by_cases hsec : m.2.2 = true
    · rw [if_pos hsec] at hr
      rcases List.mem_cons.mp hr with h1 | hr2
      · rw [h1]; simp [createRow]
      · rcases List.mem_cons.mp hr2 with h2 | hr3
        · rw [h2]; simp [createRow]
        · exact ih (rowId + 2)
            (fun x hx hx2 => hyp x (List.mem_cons_of_mem _ hx) hx2) r hr3
    · rw [if_neg hsec] at hr
      rcases List.mem_append.mp hr with hq | hr2
      · have hfalse : m.2.2 = false := by
          cases hb : m.2.2
          · rfl
          · exact absurd hb hsec
        exact questionBlockRows_no_error _ rowId
          (hyp (m, e) (List.mem_cons_self _ _) hfalse) r hq
      · exact ih _ (fun x hx hx2 => hyp x (List.mem_cons_of_mem _ hx) hx2) r hr2

/-- No input makes `parseMcq` emit an error row: every question block found
by the scanner starts with the very marker the block parser requires, so the
catch branch is unreachable. -/
theorem parseMcq_no_error (input : String) :
    ∀ r ∈ parseMcq input, r.type ≠ RowType.error := by
  intro r hr
  simp only [parseMcq] at hr
  split at hr
  · cases hr
  · split at hr
    · split at hr
      · rcases List.mem_cons.mp hr with h1 | hr2
        · rw [h1]; simp [createRow]
        · have : r = createRow 2 RowType.empty "" "" none := by simpa using hr2
          rw [this]; simp [createRow]
      · cases hr
    · next m rest heq =>
      rcases List.mem_append.mp hr with hpre | hblocks
      · by_cases hcond : 0 < m.1 ∧ jsTrim ((normalizeInput input).take m.1) ≠ []
        · rw [if_pos hcond] at hpre
          rcases List.mem_cons.mp hpre with h1 | hpre2
          · rw [h1]; simp [createRow]
          · have : r = createRow 2 RowType.empty "" "" none := by simpa using hpre2
            rw [this]; simp [createRow]
        · rw [if_neg hcond] at hpre
          cases hpre
      · rw [heq] at hblocks
        apply processBlocks_no_error (normalizeInput input)
          (withEnds (normalizeInput input).length (m :: rest)) _ _ r hblocks
        intro me hme hsec
        have hchain := scanAux_chain (normalizeInput input) 0 true 0
        rw [heq] at hchain
        have hbound : ∀ m2 ∈ m :: rest,
            m2.1 + m2.2.1 ≤ (normalizeInput input).length := by
          intro m2 hm2
          have hshape := scanAux_shape (normalizeInput input) 0 true 0 m2
            (heq ▸ hm2)
          have hle := blockMatchAt_le_length _ _ _ hshape.2
          have hpos1 := blockMatchAt_pos _ _ _ hshape.2
          rw [List.length_drop] at hle
          omega
        have hwe := withEnds_mem (m :: rest) (normalizeInput input).length
          hchain hbound me hme
        have hshape := scanAux_shape (normalizeInput input) 0 true 0 me.1
          (heq ▸ hwe.1)
        have hshape2 := hshape.2
        rw [Nat.sub_zero] at hshape2
        rw [hsec] at hshape2
        exact questionHeadMatch_isSome _ _ hshape2 _ (by omega)

end Mcq

/-- Claim C9: in every row sequence produced by `parseMcq`, every row whose
type is `error` has an empty label.  This holds because `parseMcq` never
emits an error row at all: the scanner only reports question blocks whose
text begins with the exact marker the block parser requires, so the catch
branch that would create a row with label `error` is unreachable. -/
theorem claim_C9 (input : String) :
    (parseMcq input).all
      (fun r => !(r.type == RowType.error) || (r.label == "")) = true := by
  rw [List.all_eq_true]
  intro r hr
  have hne := parseMcq_no_error input r hr
  simp [hne]


namespace Mcq

/-- The id-free projection of the rows a question block contributes: the
parsed rows plus a trailing empty row on success, one error row carrying the
whole block text plus an empty row on failure. -/
def qbrStripped (t : List Char) :
    List (RowType × String × String × Bool × Bool × Option Nat) :=
  match questionHeadMatch t with
  | none =>
    [(RowType.error, "error", String.mk t, false, false, none),
     (RowType.empty, "", "", false, false, none)]
  | some (qnum, consumed) =>
    let remaining := t.drop consumed
    let (questionText, answersText) : List Char × List Char :=
      match findAnswerStart remaining with
      | some idx => (jsTrim (remaining.take idx), remaining.drop idx)
      | none => (jsTrim remaining, [])
    ((RowType.question, String.mk qnum, String.mk questionText, false, false,
        some (decVal qnum)) ::
      (answersScan answersText 0).map (fun a =>
        (RowType.answer, String.mk [a.2.1.toUpper], String.mk (jsTrim a.2.2),
          a.1, false, (none : Option Nat)))) ++
    [(RowType.empty, "", "", false, false, none)]

/-- The id-free projection of one scanned block's contribution. -/
def blockStripped (s : List Char) (me : (Nat × Nat × Bool) × Nat) :
    List (RowType × String × String × Bool × Bool × Option Nat) :=
  let text := (s.drop me.1.1).take (me.2 - me.1.1)
  if me.1.2.2 then
    [(RowType.sec, "S", sectionTitleOf text me.1.2.1, false, false, none),
     (RowType.empty, "", "", false, false, none)]
  else qbrStripped text

theorem enumFrom_reassign_stripId :
    ∀ (l : List ParsedRow) (n : Nat) (g : Nat → Nat),
      ((List.enumFrom n l).map (fun p => { p.2 with id := g p.1 })).map stripId =
        l.map stripId := by
  intro l
  induction l with
  | nil => intro n g; rfl
  | cons x t ih =>
    intro n g
    show stripId { x with id := g n } ::
      ((List.enumFrom (n + 1) t).map (fun p => { p.2 with id := g p.1 })).map stripId =
      stripId x :: t.map stripId
    rw [ih (n + 1) g]
    rfl

theorem answers_map_stripId_from (r : Nat) :
    ∀ (ats : List (Bool × Char × List Char)) (n : Nat),
      ((List.enumFrom n ats).map (fun p =>
        let row := createRow (r + p.1 + 2) RowType.answer
          (String.mk [p.2.2.1.toUpper]) (String.mk (jsTrim p.2.2.2)) none
        if p.2.1 then { row with isKey := true } else row)).map stripId =
      ats.map (fun a =>
        (RowType.answer, String.mk [a.2.1.toUpper], String.mk (jsTrim a.2.2),
          a.1, false, (none : Option Nat))) := by
  intro ats
  induction ats with
  | nil => intro n; rfl
  | cons a t ih =>
    intro n
    simp only [List.enumFrom, List.map_cons]
    rw [ih (n + 1)]
    cases ha : a.1 with
    | false => rfl
    | true => rfl

theorem answers_map_stripId (r : Nat) (ats : List (Bool × Char × List Char)) :
    ((ats.enum.map (fun p =>
      let row := createRow (r + p.1 + 2) RowType.answer
        (String.mk [p.2.2.1.toUpper]) (String.mk (jsTrim p.2.2.2)) none
      if p.2.1 then { row with isKey := true } else row)).map stripId) =
    ats.map (fun a =>
      (RowType.answer, String.mk [a.2.1.toUpper], String.mk (jsTrim a.2.2),
        a.1, false, (none : Option Nat))) :=
  answers_map_stripId_from r ats 0

/-- The id-free content of a question block does not depend on the id
counter: stripping the ids yields the canonical per-block row list. -/
theorem questionBlockRows_map_stripId (t : List Char) (r : Nat) :
    (questionBlockRows t r).map stripId = qbrStripped t := by
  unfold questionBlockRows parseQuestionBlockFlexible qbrStripped
  cases hq : questionHeadMatch t with
  | none => rfl
  | some p =>
    obtain ⟨qn, consumed⟩ := p
    dsimp only
    rw [List.map_append]
    congr 1
    · refine Eq.trans (enumFrom_reassign_stripId _ 0 (fun k => r + k + 1)) ?_
      rw [List.map_cons]
      rw [answers_map_stripId r]
      rfl

end Mcq

namespace Mcq

theorem processBlocks_map_stripId (s : List Char) :
    ∀ (bs : List ((Nat × Nat × Bool) × Nat)) (rowId : Nat),
      (processBlocks s rowId bs).map stripId =
        (bs.map (blockStripped s)).flatten := by
  intro bs
  induction bs with
  | nil => intro rowId; rfl
  | cons b rest ih =>
    intro rowId
    obtain ⟨m, e⟩ := b
    rw [List.map_cons, List.flatten_cons]
    simp only [processBlocks, blockStripped]
    cases hs : m.2.2 with
    | true =>
      rw [if_pos rfl, if_pos rfl, List.map_cons, List.map_cons, ih (rowId + 2)]
      rfl
    | false =>
      rw [if_neg Bool.false_ne_true, if_neg Bool.false_ne_true,
        List.map_append, ih, questionBlockRows_map_stripId]

theorem questionBlockRows_error (t : List Char) (rowId : Nat)
    (h : parseQuestionBlockFlexible t rowId = Except.error ()) :
    questionBlockRows t rowId =
      [createRow (rowId + 1) RowType.error "error" (String.mk t) none,
       createRow (rowId + 2) RowType.empty "" "" none] := by
  unfold questionBlockRows
  rw [h]

end Mcq

namespace Mcq

/-- The id-free projection of the whole parse: `parseMcq` with every block
replaced by its `blockStripped` contribution. -/
def parseStripped (input : String) :
    List (RowType × String × String × Bool × Bool × Option Nat) :=
  let s := normalizeInput input
  if s = [] then []
  else
    match scanAux s 0 true 0 with
    | [] =>
      if jsTrim s ≠ [] then
        [(RowType.sec, "S", String.mk s, false, false, none),
         (RowType.empty, "", "", false, false, none)]
      else []
    | m :: rest =>
      let preamble :=
        if 0 < m.1 ∧ jsTrim (s.take m.1) ≠ [] then
          [(RowType.sec, "S", String.mk (jsTrim (s.take m.1)), false, false,
            (none : Option Nat)),
           (RowType.empty, "", "", false, false, none)]
        else []
      preamble ++
        ((withEnds s.length (m :: rest)).map (blockStripped s)).flatten

theorem parseMcq_map_stripId (input : String) :
    (parseMcq input).map stripId = parseStripped input := by
  simp only [parseMcq, parseStripped]
  by_cases h0 : normalizeInput input = []
  · rw [if_pos h0, if_pos h0]
    rfl
  · rw [if_neg h0, if_neg h0]
    cases hm : scanAux (normalizeInput input) 0 true 0 with
    | nil =>
      by_cases ht : jsTrim (normalizeInput input) ≠ []
      · rw [if_pos ht, if_pos ht]
        rfl
      · rw [if_neg ht, if_neg ht]
        rfl
    | cons m rest =>
      rw [List.map_append]
      congr 1
      · by_cases hp : 0 < m.1 ∧
            jsTrim ((normalizeInput input).take m.1) ≠ []
        · rw [if_pos hp, if_pos hp]
          rfl
        · rw [if_neg hp, if_neg hp]
          rfl
      · exact processBlocks_map_stripId _ _ _

end Mcq

/-- Claim C5: `parseMcq` is total — in this embedding it is a total function
on strings, and its output decomposes block by block: stripping the (purely
positional) row ids, the output is the preamble section followed by the
concatenation of each scanned block's own contribution, each computed from
that block's text alone, so a failing block cannot disturb the blocks after
it.  A question block whose block parser fails contributes exactly one
`error` row whose text is the full block text, followed by exactly one
`empty` row. -/
theorem claim_C5 :
    (∀ (input : String), (parseMcq input).map stripId = parseStripped input) ∧
    (∀ (s : List Char) (bs : List ((Nat × Nat × Bool) × Nat)) (rowId : Nat),
        (processBlocks s rowId bs).map stripId =
          (bs.map (blockStripped s)).flatten) ∧
    (∀ (t : List Char) (rowId : Nat),
        parseQuestionBlockFlexible t rowId = Except.error () →
        questionBlockRows t rowId =
          [createRow (rowId + 1) RowType.error "error" (String.mk t) none,
           createRow (rowId + 2) RowType.empty "" "" none]) :=
  ⟨fun input => parseMcq_map_stripId input,
   fun s bs rowId => processBlocks_map_stripId s bs rowId,
   fun t rowId h => questionBlockRows_error t rowId h⟩

theorem claim_C5_witness :
    parseQuestionBlockFlexible (String.toList "x") 0 = Except.error () ∧
    questionBlockRows (String.toList "x") 0 =
      [createRow 1 RowType.error "error" (String.mk (String.toList "x")) none,
       createRow 2 RowType.empty "" "" none] :=
  ⟨rfl, claim_C5.2.2 (String.toList "x") 0 rfl⟩
